import Mathlib

/-! # Shamir secret reconstruction (`main.cpp`): base decoding and Lagrange interpolation at zero

A shallow embedding of the functions of `src/main.cpp` that compute on integers:

* `decode_y_value` (lines 33-45): Horner evaluation of a digit string in a given base;
* `find_secret_c` (lines 48-68): Lagrange interpolation at `x = 0` with one truncating
  integer division per term;
* `to_string_big` (lines 12-24): decimal rendering of the result.

The C++ integer type is `BigInt = __int128`.  Values are modelled as `Int`; every arithmetic
operation of the source is followed by a normalisation `norm : Int → Int`.  Instantiating
`norm` with `wrap128` (two's complement reduction to `[-2^127, 2^127 - 1]`) gives the program
as compiled; instantiating it with `id` gives the same program over unbounded integers.
A division by zero produces no value (`none`); the source does not test the divisor and
signals no error (`find_secret_c_outcome`).
-/

namespace Shamir

/-! ## Machine integers -/

/-- Reduction of an integer to the signed 128-bit range `[-2^127, 2^127 - 1]`
(two's complement wrap-around of `__int128`). -/
def wrap128 (v : Int) : Int :=
  (v + ((2 ^ 127 : Nat) : Int)) % ((2 ^ 128 : Nat) : Int) - ((2 ^ 127 : Nat) : Int)

/-- The value `v` is representable as a signed 128-bit integer. -/
def InRange128 (v : Int) : Prop :=
  -((2 ^ 127 : Nat) : Int) ≤ v ∧ v ≤ ((2 ^ 127 : Nat) : Int) - 1

instance (v : Int) : Decidable (InRange128 v) := by
  unfold InRange128; infer_instance

/-! ## Data model -/

/-- One share `(x, y)`: `struct Point { BigInt x; BigInt y; }`. -/
structure Point where
  x : Int
  y : Int
deriving DecidableEq

/-! ## Base decoder -/

/-- C `isdigit` in the "C" locale: true exactly for `'0'`..`'9'` (codes 48..57). -/
def isdigit (c : Char) : Bool := 48 ≤ c.toNat && c.toNat ≤ 57

/-- C `tolower` in the "C" locale, as an `int`: `'A'`..`'Z'` (codes 65..90) are mapped to
`'a'`..`'z'`, every other character code is returned unchanged. -/
def tolower (c : Char) : Int :=
  if 65 ≤ c.toNat ∧ c.toNat ≤ 90 then (c.toNat : Int) + 32 else (c.toNat : Int)

/-- The `int digit` computed in the loop body of `decode_y_value` (lines 36-41):
`c - '0'` when `isdigit(c)`, and `tolower(c) - 'a' + 10` otherwise.  There is no check
against the base and no check that `c` is a letter. -/
def digit (c : Char) : Int :=
  if isdigit c then (c.toNat : Int) - 48 else tolower c - 97 + 10

/-- Source `decode_y_value` (lines 33-45), with `norm` applied after each arithmetic
operation on `BigInt`: `result = 0; for (char c : value_str) result = result * base + digit`.
Each list element stands for one (ASCII) `char` of the `std::string`. -/
def decode_y_value_with (norm : Int → Int) (value_str : List Char) (base : Int) : Int :=
  value_str.foldl (fun result c => norm (norm (result * base) + digit c)) 0

/-- The function `decode_y_value` as compiled: `__int128` arithmetic with wrap-around. -/
def decode_y_value (value_str : List Char) (base : Int) : Int :=
  decode_y_value_with wrap128 value_str base

/-- The function `decode_y_value` over unbounded integers. -/
def decode_y_value_unbounded (value_str : List Char) (base : Int) : Int :=
  decode_y_value_with id value_str base

/-! ## Interpolator -/

/-- One step of the inner loop of `find_secret_c` (lines 56-61) for the outer index `i` with
`points[i].x = xi`, at inner index `j` with `points[j] = pj`; the state is the pair
`(numerator, denominator)`. -/
def inner_step (norm : Int → Int) (i : Nat) (xi : Int) (nd : Int × Int) (jp : Nat × Point) :
    Int × Int :=
  if i = jp.1 then nd
  else (norm (nd.1 * norm (-jp.2.x)), norm (nd.2 * norm (xi - jp.2.x)))

/-- The inner loop of `find_secret_c` (lines 53-61): starting from
`numerator = 1, denominator = 1`, run over all indices `j` of `points`, skipping `j = i`. -/
def inner_loop (norm : Int → Int) (points : List Point) (i : Nat) (xi : Int) : Int × Int :=
  points.enum.foldl (inner_step norm i xi) (1, 1)

/-- One iteration of the outer loop of `find_secret_c` (lines 52-65): compute numerator and
denominator, then `term = points[i].y * numerator / denominator` (C++ division truncates
toward zero; a zero denominator yields no value; the quotient is normalised like every other
result) and `secret += term`. -/
def outer_step (norm : Int → Int) (points : List Point) (secret : Int) (ip : Nat × Point) :
    Option Int :=
  let nd := inner_loop norm points ip.1 ip.2.x
  if nd.2 = 0 then none
  else some (norm (secret + norm ((norm (ip.2.y * nd.1)).tdiv nd.2)))

/-- Source `find_secret_c` (lines 48-68), with `norm` applied after each arithmetic operation
on `BigInt`.  The result is `none` when some division is a division by zero.  The loop bound
`int k = points.size()` is the length of the list. -/
def find_secret_c_with (norm : Int → Int) (points : List Point) : Option Int :=
  points.enum.foldlM (outer_step norm points) 0

/-- The function `find_secret_c` as compiled: `__int128` arithmetic with wrap-around. -/
def find_secret_c (points : List Point) : Option Int :=
  find_secret_c_with wrap128 points

/-- The function `find_secret_c` over unbounded integers. -/
def find_secret_c_unbounded (points : List Point) : Option Int :=
  find_secret_c_with id points

/-! ## Reference notions used to state the properties of the decoder -/

/-- The positional value of a digit string in base `b`:
`digit d_0 * b^(m-1) + digit d_1 * b^(m-2) + ... + digit d_(m-1) * b^0`. -/
def positional_value (b : Int) : List Char → Int
  | [] => 0
  | c :: cs => digit c * b ^ cs.length + positional_value b cs

/-- A character is a letter `'a'`..`'z'` or `'A'`..`'Z'`. -/
def isletter (c : Char) : Bool :=
  (97 ≤ c.toNat && c.toNat ≤ 122) || (65 ≤ c.toNat && c.toNat ≤ 90)

/-- A character is a valid digit in base `b`: a decimal digit or a letter whose digit value
is below the base. -/
def valid_digit (b : Int) (c : Char) : Prop :=
  (isdigit c = true ∨ isletter c = true) ∧ digit c < b

instance (b : Int) (c : Char) : Decidable (valid_digit b c) := by
  unfold valid_digit; infer_instance

/-- The character of the digit value `d`: `'0'`..`'9'` for 0..9, then `'a'`..`'z'` for
10..35. -/
def digit_char (d : Nat) : Char :=
  if d < 10 then Char.ofNat (48 + d) else Char.ofNat (87 + d)

/-- The standard base-`b` digit string of `n`, most significant digit first, without leading
zeros; the string of zero is `"0"`. -/
def to_base_b_string (n b : Nat) : List Char :=
  if n = 0 then ['0'] else ((Nat.digits b n).reverse.map digit_char)

/-! ## Reference notions used to state the properties of the interpolator -/

/-- Every way of singling out one element of a list: `splits_aux pre post` pairs each element
`p` of `post` with the list of all other elements of `pre ++ post`. -/
def splits_aux : List Point → List Point → List (Point × List Point)
  | _, [] => []
  | pre, p :: rest => (p, pre ++ rest) :: splits_aux (pre ++ [p]) rest

/-- For each position `i` of `points`, the pair of `points[i]` and the list of the points at
the other positions `j ≠ i`. -/
def splits (points : List Point) : List (Point × List Point) := splits_aux [] points

/-- The exact product `prod over j ≠ i of (-x_j)`, for the list `others` of the points at
positions `j ≠ i`. -/
def numerator_of (others : List Point) : Int := (others.map (fun q => -q.x)).prod

/-- The exact product `prod over j ≠ i of (x_i - x_j)`, for the list `others` of the points at
positions `j ≠ i`. -/
def denominator_of (xi : Int) (others : List Point) : Int :=
  (others.map (fun q => xi - q.x)).prod

/-- The exact rational Lagrange value at `x = 0`:
`sum over i of y_i * prod_{j ≠ i} (-x_j) / prod_{j ≠ i} (x_i - x_j)`. -/
def lagrange_at_zero (points : List Point) : ℚ :=
  ((splits points).map (fun po =>
    (po.1.y : ℚ) * (numerator_of po.2 : ℚ) / (denominator_of po.1.x po.2 : ℚ))).sum

/-- Every per-term division of `find_secret_c` is exact over unbounded integers: for each
index `i`, the denominator computed by the inner loop divides `points[i].y * numerator`. -/
def divisions_exact (points : List Point) : Prop :=
  ∀ ip ∈ points.enum,
    (inner_loop id points ip.1 ip.2.x).2 ∣ ip.2.y * (inner_loop id points ip.1 ip.2.x).1

instance (points : List Point) : Decidable (divisions_exact points) := by
  unfold divisions_exact; infer_instance

/-- For each index `i`, the exact denominator, the exact product `points[i].y * numerator`
and the exact quotient `term` are representable as signed 128-bit integers. -/
def terms_in_range (points : List Point) : Prop :=
  ∀ ip ∈ points.enum,
    InRange128 (inner_loop id points ip.1 ip.2.x).2 ∧
    InRange128 (ip.2.y * (inner_loop id points ip.1 ip.2.x).1) ∧
    InRange128 ((ip.2.y * (inner_loop id points ip.1 ip.2.x).1).tdiv
      (inner_loop id points ip.1 ip.2.x).2)

instance (points : List Point) : Decidable (terms_in_range points) := by
  unfold terms_in_range; infer_instance

/-- The body of the inner loop of `find_secret_c` at an index `j ≠ i`, for `q = points[j]`. -/
def basis_step (norm : Int → Int) (xi : Int) (nd : Int × Int) (q : Point) : Int × Int :=
  (norm (nd.1 * norm (-q.x)), norm (nd.2 * norm (xi - q.x)))

/-- The body of the outer loop of `find_secret_c` for the point `po.1` and the list `po.2` of
the other points. -/
def term_step (norm : Int → Int) (secret : Int) (po : Point × List Point) : Option Int :=
  if (po.2.foldl (basis_step norm po.1.x) (1, 1)).2 = 0 then none
  else some (norm (secret + norm ((norm (po.1.y *
    (po.2.foldl (basis_step norm po.1.x) (1, 1)).1)).tdiv
      (po.2.foldl (basis_step norm po.1.x) (1, 1)).2)))

/-- The term of the point `po.1` over unbounded integers: the truncated quotient of
`y_i * numerator_i` by `denominator_i`. -/
def exact_term (po : Point × List Point) : Int :=
  (po.1.y * numerator_of po.2).tdiv (denominator_of po.1.x po.2)

/-- The term of the point `po.1` in 128-bit arithmetic: the truncated quotient of the wrapped
product `y_i * numerator_i` by the wrapped `denominator_i`. -/
def wrapped_term (po : Point × List Point) : Int :=
  (wrap128 (po.1.y * numerator_of po.2)).tdiv (wrap128 (denominator_of po.1.x po.2))

/-! ## Outcomes of a call of `find_secret_c` -/

/-- The failure kinds named by the specification (section 7).  The source declares none of
them. -/
inductive ErrorKind
  | InvalidDigit
  | InvalidBase
  | DegenerateInput
  | ThresholdMismatch
  | NonIntegralResult
deriving DecidableEq

/-- What a call of a function can do: return an integer, signal one of the failure kinds to
its caller, or execute the integer division of line 63 with a zero divisor, which the program
does not check and whose behaviour C++ leaves undefined. -/
inductive Outcome
  | returned (v : Int)
  | signalled (e : ErrorKind)
  | undefined_division_by_zero
deriving DecidableEq

/-- The outcome of `find_secret_c` (lines 48-68).  The function has return type `BigInt` and
contains no test of the denominator, no error return and no `throw`: it either returns the sum
of the terms or divides by a zero denominator at line 63. -/
def find_secret_c_outcome (points : List Point) : Outcome :=
  match find_secret_c points with
  | some v => Outcome.returned v
  | none => Outcome.undefined_division_by_zero

/-! ## Decoding the shares and printing the secret -/

/-- The decoding step of `solve` (lines 105-106): each parsed record `(x, base, value)` becomes
the point `{x, decode_y_value(value, base)}`. -/
def decode_points_with (norm : Int → Int) (records : List (Int × Int × List Char)) :
    List Point :=
  records.map (fun r => ⟨r.1, decode_y_value_with norm r.2.2 r.2.1⟩)

/-- The first `k = 7` records `(key, base, value)` of `testcase2_json` (lines 128-140), which
are the shares that `solve` decodes and passes to `find_secret_c`. -/
def testcase2_records : List (Int × Int × List Char) :=
  [(1, 6, "13444211440455345511".toList),
   (2, 15, "aed7015a346d63".toList),
   (3, 15, "6aeeb69631c227c".toList),
   (4, 16, "e1b5e05623d881f".toList),
   (5, 8, "316034514573652620673".toList),
   (6, 3, "2122212201122002221120200210011020220200".toList),
   (7, 3, "20120221122211000100210021102001201112121".toList)]

/-- The points that `solve` passes to `find_secret_c` for `testcase2_json`: the seven records
decoded with the compiled (128-bit) `decode_y_value`. -/
def testcase2_points : List Point := decode_points_with wrap128 testcase2_records

/-- The value of `secret` after the first `i` iterations of the outer loop of `find_secret_c`
(`none` when one of these iterations divides by zero). -/
def partial_secret (norm : Int → Int) (points : List Point) (i : Nat) : Option Int :=
  (points.enum.take i).foldlM (outer_step norm points) 0

/-- The `while (n > 0)` loop of `to_string_big` (lines 17-20):
`s += (n % 10) + '0'; n /= 10;`.  The first argument bounds the number of iterations; every
iteration with `n > 0` makes `n` smaller, so `n` iterations are always enough. -/
def to_string_big_loop (norm : Int → Int) : Nat → Int → List Char → List Char
  | 0, _, s => s
  | fuel + 1, n, s =>
    if 0 < n then
      to_string_big_loop norm fuel (norm (n.tdiv 10))
        (s ++ [Char.ofNat (norm (n.tmod 10 + 48)).toNat])
    else s

/-- Source `to_string_big` (lines 12-24), with `norm` applied after each arithmetic operation
on `BigInt`: `"0"` for zero; otherwise negate a negative `n`, collect the decimal digits from the
least significant one, append `'-'` for a negative input and reverse the string. -/
def to_string_big_with (norm : Int → Int) (n : Int) : List Char :=
  if n = 0 then ['0']
  else
    let is_negative : Bool := decide (n < 0)
    let n1 : Int := if is_negative then norm (-n) else n
    let s : List Char := to_string_big_loop norm n1.toNat n1 []
    let s : List Char := if is_negative then s ++ ['-'] else s
    s.reverse

/-- The function `to_string_big` as compiled: `__int128` arithmetic with wrap-around. -/
def to_string_big (n : Int) : List Char := to_string_big_with wrap128 n

/-- The sign-first decimal rendering of an integer: `"0"` for zero, otherwise a leading `'-'`
exactly when `n < 0`, followed by the decimal digits of `|n|` without leading zeros. -/
def signed_decimal (n : Int) : List Char :=
  if n = 0 then ['0']
  else (if n < 0 then ['-'] else []) ++ to_base_b_string n.natAbs 10

/-- Reading a string as a signed decimal: an optional leading `'-'` followed by decimal
digits. -/
def parse_signed_decimal : List Char → Int
  | '-' :: ds => -(positional_value 10 ds)
  | ds => positional_value 10 ds

/-! ## Arithmetic of `wrap128` -/

theorem wrap128_modEq (v : Int) : wrap128 v ≡ v [ZMOD ((2 ^ 128 : Nat) : Int)] := by
  unfold wrap128 Int.ModEq
  norm_num
  omega

theorem wrap128_eq_of_modEq {a b : Int} (h : a ≡ b [ZMOD ((2 ^ 128 : Nat) : Int)]) :
    wrap128 a = wrap128 b := by
  unfold wrap128
  have h2 : (a + ((2 ^ 127 : Nat) : Int)) % ((2 ^ 128 : Nat) : Int)
      = (b + ((2 ^ 127 : Nat) : Int)) % ((2 ^ 128 : Nat) : Int) := Int.ModEq.add_right _ h
  rw [h2]

theorem wrap128_of_inRange {v : Int} (h : InRange128 v) : wrap128 v = v := by
  unfold wrap128
  unfold InRange128 at h
  norm_num at *
  omega

theorem wrap128_inRange (v : Int) : InRange128 (wrap128 v) := by
  unfold wrap128 InRange128
  norm_num
  omega

theorem wrap128_mul_left (a b : Int) : wrap128 (wrap128 a * b) = wrap128 (a * b) :=
  wrap128_eq_of_modEq ((wrap128_modEq a).mul_right b)

theorem wrap128_mul_right (a b : Int) : wrap128 (a * wrap128 b) = wrap128 (a * b) :=
  wrap128_eq_of_modEq ((wrap128_modEq b).mul_left a)

theorem wrap128_add_left (a b : Int) : wrap128 (wrap128 a + b) = wrap128 (a + b) :=
  wrap128_eq_of_modEq ((wrap128_modEq a).add_right b)

theorem wrap128_add_right (a b : Int) : wrap128 (a + wrap128 b) = wrap128 (a + b) :=
  wrap128_eq_of_modEq ((wrap128_modEq b).add_left a)

theorem wrap128_idem (a : Int) : wrap128 (wrap128 a) = wrap128 a :=
  wrap128_eq_of_modEq (wrap128_modEq a)

theorem wrap128_zero : wrap128 0 = 0 := by decide

theorem wrap128_one : wrap128 1 = 1 := by decide

/-! ## The decoder computes the positional value -/

theorem digit_digit_char (d : Nat) (h : d < 36) : digit (digit_char d) = d := by
  interval_cases d <;> decide

/-- Horner evaluation from an arbitrary accumulator. -/
theorem foldl_horner (b : Int) (s : List Char) (a : Int) :
    s.foldl (fun result c => result * b + digit c) a
      = a * b ^ s.length + positional_value b s := by
  induction s generalizing a with
  | nil => simp [positional_value]
  | cons c cs ih =>
    simp only [List.foldl_cons, ih, positional_value, List.length_cons]
    ring

theorem decode_y_value_unbounded_eq (s : List Char) (b : Int) :
    decode_y_value_unbounded s b = positional_value b s := by
  unfold decode_y_value_unbounded decode_y_value_with
  simp only [id_eq]
  rw [foldl_horner]; simp

theorem foldl_wrap128 (b : Int) (s : List Char) (a : Int) :
    s.foldl (fun result c => wrap128 (wrap128 (result * b) + digit c)) (wrap128 a)
      = wrap128 (s.foldl (fun result c => result * b + digit c) a) := by
  induction s generalizing a with
  | nil => simp
  | cons c cs ih =>
    simp only [List.foldl_cons]
    rw [← ih, wrap128_mul_left, wrap128_add_left]

theorem decode_y_value_eq_wrap (s : List Char) (b : Int) :
    decode_y_value s b = wrap128 (positional_value b s) := by
  rw [← decode_y_value_unbounded_eq]
  unfold decode_y_value decode_y_value_unbounded decode_y_value_with
  simp only [id_eq]
  rw [← foldl_wrap128, wrap128_zero]

theorem positional_value_append (b : Int) (s t : List Char) :
    positional_value b (s ++ t) = positional_value b s * b ^ t.length + positional_value b t := by
  induction s with
  | nil => simp [positional_value]
  | cons c cs ih =>
    rw [List.cons_append, positional_value, positional_value, ih, List.length_append, pow_add]
    ring

theorem positional_value_digits (b : Nat) (hb : b ≤ 36) (L : List Nat) (hL : ∀ d ∈ L, d < b) :
    positional_value b (L.reverse.map digit_char) = Nat.ofDigits b L := by
  induction L with
  | nil => simp [positional_value]
  | cons d L ih =>
    have hd : d < 36 := lt_of_lt_of_le (hL d (List.mem_cons_self _ _)) hb
    have ih2 := ih (fun e he => hL e (List.mem_cons_of_mem _ he))
    simp only [List.reverse_cons, List.map_append, List.map_cons, List.map_nil,
      positional_value_append, ih2, positional_value, List.length_singleton, List.length_nil,
      digit_digit_char d hd, Nat.ofDigits_cons]
    push_cast
    ring

theorem positional_value_to_base_b_string (n b : Nat) (hb2 : 2 ≤ b) (hb : b ≤ 36) :
    positional_value b (to_base_b_string n b) = n := by
  unfold to_base_b_string
  split
  · next h => subst h; simp [positional_value]; decide
  · rw [positional_value_digits b hb _ (fun d hd => Nat.digits_lt_base (by omega) hd),
      Nat.ofDigits_digits]

theorem valid_digit_nonneg (b : Int) (c : Char) (h : valid_digit b c) : 0 ≤ digit c := by
  obtain ⟨h1, -⟩ := h
  unfold digit tolower
  unfold isdigit isletter at *
  simp only [Bool.and_eq_true, Bool.or_eq_true, decide_eq_true_eq] at h1 ⊢
  split_ifs <;> omega

theorem positional_value_nonneg (b : Int) (hb : 0 ≤ b) (s : List Char)
    (hs : ∀ c ∈ s, valid_digit b c) : 0 ≤ positional_value b s := by
  induction s with
  | nil => simp [positional_value]
  | cons c cs ih =>
    have h1 := valid_digit_nonneg b c (hs c (List.mem_cons_self _ _))
    have h2 := ih (fun e he => hs e (List.mem_cons_of_mem _ he))
    simp only [positional_value]
    positivity

/-! ## The loops of `find_secret_c` in terms of `splits` -/

theorem foldl_inner_step_of_ne (norm : Int → Int) (i : Nat) (xi : Int) (l : List Point)
    (n : Nat) (h : i < n ∨ n + l.length ≤ i) (nd : Int × Int) :
    (l.enumFrom n).foldl (inner_step norm i xi) nd = l.foldl (basis_step norm xi) nd := by
  induction l generalizing n nd with
  | nil => rfl
  | cons q l ih =>
    have hne : i ≠ n := by
      rcases h with h | h
      · omega
      · simp only [List.length_cons] at h; omega
    have h2 : i < n + 1 ∨ n + 1 + l.length ≤ i := by
      rcases h with h | h
      · left; omega
      · right; simp only [List.length_cons] at h; omega
    simp only [List.enumFrom_cons, List.foldl_cons]
    rw [ih (n + 1) h2]
    simp [inner_step, basis_step, hne]

theorem inner_loop_split (norm : Int → Int) (pre rest : List Point) (p : Point) (xi : Int) :
    inner_loop norm (pre ++ p :: rest) pre.length xi
      = (pre ++ rest).foldl (basis_step norm xi) (1, 1) := by
  unfold inner_loop
  rw [List.enum, List.enumFrom_append, List.foldl_append, List.foldl_append]
  rw [foldl_inner_step_of_ne norm pre.length xi pre 0 (Or.inr (by omega))]
  simp only [List.enumFrom_cons, List.foldl_cons, zero_add]
  rw [foldl_inner_step_of_ne norm pre.length xi rest (pre.length + 1) (Or.inl (by omega))]
  simp [inner_step]

theorem outer_step_split (norm : Int → Int) (pre rest : List Point) (p : Point) (s : Int) :
    outer_step norm (pre ++ p :: rest) s (pre.length, p) = term_step norm s (p, pre ++ rest) := by
  unfold outer_step term_step
  simp only [inner_loop_split]

theorem foldlM_outer_step (norm : Int → Int) (pre post : List Point) (s : Int) :
    (post.enumFrom pre.length).foldlM (outer_step norm (pre ++ post)) s
      = (splits_aux pre post).foldlM (term_step norm) s := by
  induction post generalizing pre s with
  | nil => rfl
  | cons p rest ih =>
    simp only [List.enumFrom_cons, List.foldlM_cons, splits_aux, outer_step_split]
    have h1 : pre ++ p :: rest = (pre ++ [p]) ++ rest := by simp
    have h2 : pre.length + 1 = (pre ++ [p]).length := by simp
    rw [h1, h2]
    congr 1
    funext s2
    exact ih (pre ++ [p]) s2

theorem find_secret_c_with_eq (norm : Int → Int) (points : List Point) :
    find_secret_c_with norm points = (splits points).foldlM (term_step norm) 0 := by
  unfold find_secret_c_with splits
  exact foldlM_outer_step norm [] points 0

theorem foldl_basis_step_id (xi : Int) (others : List Point) (a b : Int) :
    others.foldl (basis_step id xi) (a, b)
      = (a * numerator_of others, b * denominator_of xi others) := by
  induction others generalizing a b with
  | nil => simp [numerator_of, denominator_of]
  | cons q l ih =>
    simp only [List.foldl_cons, basis_step, id_eq, ih, numerator_of, denominator_of,
      List.map_cons, List.prod_cons, mul_assoc]

theorem foldl_basis_step_wrap (xi : Int) (others : List Point) (a b : Int) :
    others.foldl (basis_step wrap128 xi) (wrap128 a, wrap128 b)
      = (wrap128 (a * numerator_of others), wrap128 (b * denominator_of xi others)) := by
  induction others generalizing a b with
  | nil => simp [numerator_of, denominator_of]
  | cons q l ih =>
    simp only [List.foldl_cons, basis_step]
    rw [wrap128_mul_left, wrap128_mul_right, wrap128_mul_left, wrap128_mul_right, ih]
    simp only [numerator_of, denominator_of, List.map_cons, List.prod_cons, mul_assoc]

theorem term_step_id (s : Int) (po : Point × List Point) :
    term_step id s po
      = if denominator_of po.1.x po.2 = 0 then none else some (s + exact_term po) := by
  unfold term_step exact_term
  simp only [foldl_basis_step_id, one_mul, id_eq]

theorem term_step_wrap (s : Int) (po : Point × List Point) :
    term_step wrap128 s po
      = if wrap128 (denominator_of po.1.x po.2) = 0 then none
        else some (wrap128 (s + wrapped_term po)) := by
  unfold term_step wrapped_term
  have h := foldl_basis_step_wrap po.1.x po.2 1 1
  rw [wrap128_one] at h
  simp only [h, one_mul, wrap128_mul_right, wrap128_add_right]

/-- A loop that accumulates `norm (s + t a)` and stops without a value at the first `a` with
`d a = 0`. -/
theorem foldlM_accumulate {α : Type} (norm : Int → Int)
    (hnorm : ∀ a b, norm (norm a + b) = norm (a + b)) (d t : α → Int) (L : List α) (s : Int) :
    L.foldlM (fun s a => if d a = 0 then none else some (norm (s + t a))) (norm s)
      = if ∃ a ∈ L, d a = 0 then none else some (norm (s + (L.map t).sum)) := by
  induction L generalizing s with
  | nil => simp
  | cons a L ih =>
    simp only [List.foldlM_cons, List.mem_cons, exists_eq_or_imp, List.map_cons, List.sum_cons]
    by_cases h : d a = 0
    · simp [h]
    · simp only [h, if_false, false_or]
      rw [show (some (norm (norm s + t a)) >>= fun s' =>
          List.foldlM (fun s a => if d a = 0 then none else some (norm (s + t a))) s' L)
          = List.foldlM (fun s a => if d a = 0 then none else some (norm (s + t a)))
            (norm (norm s + t a)) L from rfl]
      rw [hnorm, ih, add_assoc]

/-- The function `find_secret_c` in closed form: no value when some wrapped denominator is
zero, else the wrapped sum of the wrapped terms. -/
theorem find_secret_c_eq (points : List Point) :
    find_secret_c points
      = if ∃ po ∈ splits points, wrap128 (denominator_of po.1.x po.2) = 0 then none
        else some (wrap128 ((splits points).map wrapped_term).sum) := by
  unfold find_secret_c
  rw [find_secret_c_with_eq]
  have h := foldlM_accumulate wrap128 wrap128_add_left
    (fun po : Point × List Point => wrap128 (denominator_of po.1.x po.2)) wrapped_term
    (splits points) 0
  simp only [wrap128_zero, zero_add] at h
  rw [← h]
  congr 1
  funext s po
  exact term_step_wrap s po

/-- The function `find_secret_c_unbounded` in closed form. -/
theorem find_secret_c_unbounded_eq (points : List Point) :
    find_secret_c_unbounded points
      = if ∃ po ∈ splits points, denominator_of po.1.x po.2 = 0 then none
        else some ((splits points).map exact_term).sum := by
  unfold find_secret_c_unbounded
  rw [find_secret_c_with_eq]
  have h := foldlM_accumulate id (fun _ _ => rfl)
    (fun po : Point × List Point => denominator_of po.1.x po.2) exact_term
    (splits points) 0
  simp only [id_eq, zero_add] at h
  rw [← h]
  congr 1
  funext s po
  exact term_step_id s po

/-! ## Membership in `splits` and invariance under permutation -/

theorem mem_splits_aux (pre a rest : List Point) (p : Point) :
    (p, pre ++ a ++ rest) ∈ splits_aux pre (a ++ p :: rest) := by
  induction a generalizing pre with
  | nil => simp [splits_aux]
  | cons b a ih =>
    simp only [List.cons_append, splits_aux, List.mem_cons]
    right
    have h := ih (pre ++ [b])
    simpa using h

theorem mem_splits (a rest : List Point) (p : Point) :
    (p, a ++ rest) ∈ splits (a ++ p :: rest) := by
  have h := mem_splits_aux [] a rest p
  simpa [splits] using h

theorem numerator_of_perm {o o2 : List Point} (h : o.Perm o2) :
    numerator_of o = numerator_of o2 :=
  (h.map _).prod_eq

theorem denominator_of_perm (xi : Int) {o o2 : List Point} (h : o.Perm o2) :
    denominator_of xi o = denominator_of xi o2 :=
  (h.map _).prod_eq

theorem splits_aux_map_congr {β : Type} (F : Point → List Point → β)
    (hF : ∀ p o o2, o.Perm o2 → F p o = F p o2) (post : List Point) :
    ∀ pre pre2 : List Point, pre.Perm pre2 →
      (splits_aux pre post).map (fun po => F po.1 po.2)
        = (splits_aux pre2 post).map (fun po => F po.1 po.2) := by
  induction post with
  | nil => intro pre pre2 _; rfl
  | cons p rest ih =>
    intro pre pre2 h
    simp only [splits_aux, List.map_cons]
    rw [hF p _ _ (h.append_right rest), ih _ _ (h.append_right [p])]

theorem splits_aux_map_perm {β : Type} (F : Point → List Point → β)
    (hF : ∀ p o o2, o.Perm o2 → F p o = F p o2) {post post2 : List Point}
    (h : post.Perm post2) :
    ∀ pre pre2 : List Point, pre.Perm pre2 →
      ((splits_aux pre post).map (fun po => F po.1 po.2)).Perm
        ((splits_aux pre2 post2).map (fun po => F po.1 po.2)) := by
  induction h with
  | nil => intro pre pre2 _; exact List.Perm.refl _
  | cons x _ ih =>
    intro pre pre2 hp
    simp only [splits_aux, List.map_cons]
    rw [hF x _ _ (hp.append ‹_›)]
    exact List.Perm.cons _ (ih _ _ (hp.append_right [x]))
  | swap x y l =>
    intro pre pre2 hp
    simp only [splits_aux, List.map_cons]
    have e1 : F y (pre ++ x :: l) = F y (pre2 ++ [x] ++ l) :=
      hF y _ _ (by simpa using hp.append_right (x :: l))
    have e2 : F x (pre ++ [y] ++ l) = F x (pre2 ++ y :: l) :=
      hF x _ _ (by simpa using hp.append_right (y :: l))
    have e3 := splits_aux_map_congr F hF l (pre ++ [y] ++ [x]) (pre2 ++ [x] ++ [y])
      (by
        simp only [List.append_assoc, List.singleton_append]
        exact hp.append (List.Perm.swap x y []))
    rw [e1, e2, e3]
    exact List.Perm.swap _ _ _
  | trans _ _ ih1 ih2 =>
    intro pre pre2 hp
    exact (ih1 pre pre (List.Perm.refl _)).trans (ih2 pre pre2 hp)

theorem splits_map_perm {β : Type} (F : Point → List Point → β)
    (hF : ∀ p o o2, o.Perm o2 → F p o = F p o2) {l l2 : List Point} (h : l.Perm l2) :
    ((splits l).map (fun po => F po.1 po.2)).Perm ((splits l2).map (fun po => F po.1 po.2)) :=
  splits_aux_map_perm F hF h [] [] (List.Perm.refl _)

theorem find_secret_c_perm {l l2 : List Point} (h : l.Perm l2) :
    find_secret_c l = find_secret_c l2 := by
  rw [find_secret_c_eq, find_secret_c_eq]
  have hd := splits_map_perm (fun p o => wrap128 (denominator_of p.x o))
    (fun p o o2 ho => by simp only [denominator_of_perm p.x ho]) h
  have ht := splits_map_perm (fun p o => wrapped_term (p, o))
    (fun p o o2 ho => by
      simp only [wrapped_term, denominator_of_perm p.x ho, numerator_of_perm ho]) h
  have hsum : ((splits l).map wrapped_term).sum = ((splits l2).map wrapped_term).sum :=
    ht.sum_eq
  have hmem : (∃ po ∈ splits l, wrap128 (denominator_of po.1.x po.2) = 0)
      ↔ (∃ po ∈ splits l2, wrap128 (denominator_of po.1.x po.2) = 0) := by
    have := hd.mem_iff (a := 0)
    simpa [List.mem_map] using this
  rw [hsum]
  by_cases hc : ∃ po ∈ splits l, wrap128 (denominator_of po.1.x po.2) = 0
  · rw [if_pos hc, if_pos (hmem.mp hc)]
  · rw [if_neg hc, if_neg (fun h2 => hc (hmem.mpr h2))]

theorem denominator_of_eq_zero (p q : Point) (others : List Point) (hq : q ∈ others)
    (hx : p.x = q.x) : denominator_of p.x others = 0 := by
  unfold denominator_of
  apply List.prod_eq_zero
  rw [List.mem_map]
  exact ⟨q, hq, by rw [hx]; ring⟩

theorem find_secret_c_duplicate (pre mid rest : List Point) (p q : Point) (hx : p.x = q.x) :
    find_secret_c (pre ++ p :: (mid ++ q :: rest)) = none := by
  rw [find_secret_c_eq, if_pos]
  refine ⟨(p, pre ++ (mid ++ q :: rest)), mem_splits pre _ p, ?_⟩
  rw [denominator_of_eq_zero p q _ (by simp) hx]
  exact wrap128_zero

theorem exists_split_of_not_nodup (l : List Point) (h : ¬ (l.map Point.x).Nodup) :
    ∃ pre mid rest p q, l = pre ++ p :: (mid ++ q :: rest) ∧ p.x = q.x := by
  induction l with
  | nil => simp at h
  | cons p l ih =>
    rw [List.map_cons, List.nodup_cons, not_and_or, not_not] at h
    rcases h with h | h
    · rw [List.mem_map] at h
      obtain ⟨q, hq, hqx⟩ := h
      obtain ⟨mid, rest, rfl⟩ := List.append_of_mem hq
      exact ⟨[], mid, rest, p, q, rfl, hqx.symm⟩
    · obtain ⟨pre, mid, rest, p2, q, rfl, hx⟩ := ih h
      exact ⟨p :: pre, mid, rest, p2, q, rfl, hx⟩

theorem find_secret_c_not_nodup (l : List Point) (h : ¬ (l.map Point.x).Nodup) :
    find_secret_c l = none := by
  obtain ⟨pre, mid, rest, p, q, rfl, hx⟩ := exists_split_of_not_nodup l h
  exact find_secret_c_duplicate pre mid rest p q hx

/-! ## The exact Lagrange value and the constant term of the polynomial -/

theorem splits_aux_eq_map_erase (post : List Point) :
    ∀ pre : List Point, (pre ++ post).Nodup →
      splits_aux pre post = post.map (fun pt => (pt, (pre ++ post).erase pt)) := by
  induction post with
  | nil => intro pre _; rfl
  | cons p rest ih =>
    intro pre h
    have hp : p ∉ pre := by
      intro hmem
      have := (List.nodup_append.mp h).2.2
      exact this hmem (List.mem_cons_self _ _)
    have h2 : (pre ++ [p] ++ rest).Nodup := by simpa using h
    simp only [splits_aux, List.map_cons]
    rw [List.erase_append_right _ hp, List.erase_cons_head, ih (pre ++ [p]) h2]
    simp

theorem splits_eq_map_erase (l : List Point) (h : l.Nodup) :
    splits l = l.map (fun pt => (pt, l.erase pt)) := by
  have := splits_aux_eq_map_erase l [] (by simpa using h)
  simpa [splits] using this

theorem nodup_of_nodup_map_x (l : List Point) (h : (l.map Point.x).Nodup) : l.Nodup :=
  List.Nodup.of_map _ h

theorem prod_toFinset_erase (l : List Point) (h : l.Nodup) (pt : Point) (g : Point → ℚ) :
    ∏ q ∈ l.toFinset.erase pt, g q = ((l.erase pt).map g).prod := by
  have e : l.toFinset.erase pt = (l.erase pt).toFinset := by
    ext q
    simp only [Finset.mem_erase, List.mem_toFinset, h.mem_erase_iff]
  rw [e, List.prod_toFinset g (h.erase pt)]

theorem prod_inv_mul_eq (xi : Int) (o : List Point) :
    (o.map (fun q : Point => ((xi : ℚ) - (q.x : ℚ))⁻¹ * (0 - (q.x : ℚ)))).prod
      = (numerator_of o : ℚ) / (denominator_of xi o : ℚ) := by
  induction o with
  | nil => simp [numerator_of, denominator_of]
  | cons q o ih =>
    have hn : numerator_of (q :: o) = -q.x * numerator_of o := by
      simp [numerator_of]
    have hd : denominator_of xi (q :: o) = (xi - q.x) * denominator_of xi o := by
      simp [denominator_of]
    rw [List.map_cons, List.prod_cons, ih, hn, hd]
    push_cast
    rw [div_eq_mul_inv, div_eq_mul_inv, mul_inv]
    ring

theorem lagrange_at_zero_eq_eval (l : List Point) (hx : (l.map Point.x).Nodup)
    (p : Polynomial ℚ) (hdeg : p.degree < (l.length : WithBot ℕ))
    (hon : ∀ pt ∈ l, p.eval (pt.x : ℚ) = (pt.y : ℚ)) :
    lagrange_at_zero l = p.eval 0 := by
  have hl : l.Nodup := nodup_of_nodup_map_x l hx
  have hinj : Set.InjOn (fun pt : Point => (pt.x : ℚ)) (l.toFinset : Set Point) := by
    intro a ha b hb hab
    have ha2 : a ∈ l := by simpa using ha
    have hb2 : b ∈ l := by simpa using hb
    have hab1 : (a.x : ℚ) = (b.x : ℚ) := hab
    have hab2 : a.x = b.x := by exact_mod_cast hab1
    exact List.inj_on_of_nodup_map hx ha2 hb2 hab2
  have hcard : l.toFinset.card = l.length := List.toFinset_card_of_nodup hl
  have hp := Lagrange.eq_interpolate_of_eval_eq (s := l.toFinset)
    (v := fun pt : Point => (pt.x : ℚ)) (fun pt : Point => (pt.y : ℚ)) hinj
    (by rw [hcard]; exact hdeg) (fun pt hpt => hon pt (by simpa using hpt))
  have hev : p.eval 0 = ∑ pt ∈ l.toFinset,
      (pt.y : ℚ) * ∏ q ∈ l.toFinset.erase pt, (((pt.x : ℚ) - (q.x : ℚ))⁻¹ * (0 - (q.x : ℚ))) := by
    conv_lhs => rw [hp]
    simp only [Lagrange.interpolate_apply, Lagrange.basis, Lagrange.basisDivisor,
      Polynomial.eval_finset_sum, Polynomial.eval_mul, Polynomial.eval_C, Polynomial.eval_prod,
      Polynomial.eval_sub, Polynomial.eval_X]
  rw [hev, List.sum_toFinset _ hl]
  unfold lagrange_at_zero
  rw [splits_eq_map_erase l hl, List.map_map]
  congr 1
  apply List.map_congr_left
  intro pt _
  simp only [Function.comp_apply]
  rw [prod_toFinset_erase l hl]
  rw [prod_inv_mul_eq, mul_div_assoc]

/-! ## Hypotheses on the inner loop in terms of `splits` -/

theorem inner_loop_id_split (pre rest : List Point) (p : Point) (xi : Int) :
    inner_loop id (pre ++ p :: rest) pre.length xi
      = (numerator_of (pre ++ rest), denominator_of xi (pre ++ rest)) := by
  rw [inner_loop_split, foldl_basis_step_id, one_mul, one_mul]

theorem forall_enumFrom_iff_splits_aux (P : Point → Int × Int → Prop) (post : List Point) :
    ∀ pre : List Point,
      (∀ ip ∈ post.enumFrom pre.length, P ip.2 (inner_loop id (pre ++ post) ip.1 ip.2.x))
        ↔ ∀ po ∈ splits_aux pre post,
            P po.1 (numerator_of po.2, denominator_of po.1.x po.2) := by
  induction post with
  | nil => intro pre; simp [splits_aux]
  | cons p rest ih =>
    intro pre
    have h1 : pre ++ p :: rest = (pre ++ [p]) ++ rest := by simp
    have h2 : pre.length + 1 = (pre ++ [p]).length := by simp
    simp only [List.enumFrom_cons, splits_aux, List.forall_mem_cons, inner_loop_id_split]
    rw [h1, h2, ih (pre ++ [p])]

theorem forall_enum_iff_splits (P : Point → Int × Int → Prop) (points : List Point) :
    (∀ ip ∈ points.enum, P ip.2 (inner_loop id points ip.1 ip.2.x))
      ↔ ∀ po ∈ splits points, P po.1 (numerator_of po.2, denominator_of po.1.x po.2) := by
  have h := forall_enumFrom_iff_splits_aux P points []
  simpa [splits, List.enum] using h

theorem divisions_exact_iff (points : List Point) :
    divisions_exact points
      ↔ ∀ po ∈ splits points, denominator_of po.1.x po.2 ∣ po.1.y * numerator_of po.2 :=
  forall_enum_iff_splits (fun pt nd => nd.2 ∣ pt.y * nd.1) points

theorem terms_in_range_iff (points : List Point) :
    terms_in_range points
      ↔ ∀ po ∈ splits points, InRange128 (denominator_of po.1.x po.2) ∧
          InRange128 (po.1.y * numerator_of po.2) ∧ InRange128 (exact_term po) :=
  forall_enum_iff_splits
    (fun pt nd => InRange128 nd.2 ∧ InRange128 (pt.y * nd.1) ∧ InRange128 ((pt.y * nd.1).tdiv nd.2))
    points

/-! ## Distinct x-values give non-zero denominators -/

theorem denominator_of_ne_zero (l : List Point) (hx : (l.map Point.x).Nodup)
    (po : Point × List Point) (hpo : po ∈ splits l) : denominator_of po.1.x po.2 ≠ 0 := by
  have hl : l.Nodup := nodup_of_nodup_map_x l hx
  rw [splits_eq_map_erase l hl, List.mem_map] at hpo
  obtain ⟨pt, hpt, rfl⟩ := hpo
  unfold denominator_of
  apply List.prod_ne_zero
  rw [List.mem_map]
  rintro ⟨q, hq, hq0⟩
  have hq2 := (hl.mem_erase_iff).mp hq
  have hqx : q.x = pt.x := by simp only at hq0; omega
  exact hq2.1 (List.inj_on_of_nodup_map hx hq2.2 hpt hqx)

/-! ## Exact divisions within the 128-bit range give the constant term -/

theorem exact_term_cast (po : Point × List Point)
    (hd : denominator_of po.1.x po.2 ≠ 0)
    (hdvd : denominator_of po.1.x po.2 ∣ po.1.y * numerator_of po.2) :
    ((exact_term po : Int) : ℚ)
      = (po.1.y : ℚ) * (numerator_of po.2 : ℚ) / (denominator_of po.1.x po.2 : ℚ) := by
  unfold exact_term
  rw [Int.tdiv_eq_ediv_of_dvd hdvd, Int.cast_div hdvd (by exact_mod_cast hd)]
  push_cast
  rfl

theorem sum_exact_term_cast (l : List Point) (hx : (l.map Point.x).Nodup)
    (hex : divisions_exact l) :
    ((((splits l).map exact_term).sum : Int) : ℚ) = lagrange_at_zero l := by
  unfold lagrange_at_zero
  rw [Int.cast_list_sum, List.map_map]
  congr 1
  apply List.map_congr_left
  intro po hpo
  exact exact_term_cast po (denominator_of_ne_zero l hx po hpo)
    ((divisions_exact_iff l).mp hex po hpo)

theorem wrapped_term_eq_exact_term (po : Point × List Point)
    (hd : InRange128 (denominator_of po.1.x po.2))
    (hn : InRange128 (po.1.y * numerator_of po.2)) : wrapped_term po = exact_term po := by
  unfold wrapped_term exact_term
  rw [wrap128_of_inRange hd, wrap128_of_inRange hn]

/-- With distinct x-values and in-range denominators no division fails. -/
theorem find_secret_c_of_denominators_in_range (l : List Point) (hx : (l.map Point.x).Nodup)
    (hd : ∀ po ∈ splits l, InRange128 (denominator_of po.1.x po.2)) :
    find_secret_c l = some (wrap128 ((splits l).map wrapped_term).sum) := by
  rw [find_secret_c_eq, if_neg]
  rintro ⟨po, hpo, h0⟩
  rw [wrap128_of_inRange (hd po hpo)] at h0
  exact denominator_of_ne_zero l hx po hpo h0

/-- With distinct x-values and in-range intermediate values the compiled function agrees with
the sum of the exact terms. -/
theorem find_secret_c_of_in_range (l : List Point) (hx : (l.map Point.x).Nodup)
    (hr : terms_in_range l) :
    find_secret_c l = some (wrap128 ((splits l).map exact_term).sum) := by
  have hr2 := (terms_in_range_iff l).mp hr
  rw [find_secret_c_of_denominators_in_range l hx (fun po hpo => (hr2 po hpo).1)]
  congr 3
  apply List.map_congr_left
  intro po hpo
  exact wrapped_term_eq_exact_term po (hr2 po hpo).1 (hr2 po hpo).2.1

/-- Points on a polynomial of degree `< k`, exact divisions, in-range intermediate values:
the result is the constant term, reduced to 128 bits. -/
theorem find_secret_c_of_exact (l : List Point) (hx : (l.map Point.x).Nodup)
    (p : Polynomial ℚ) (hdeg : p.degree < (l.length : WithBot ℕ))
    (hon : ∀ pt ∈ l, p.eval (pt.x : ℚ) = (pt.y : ℚ))
    (hex : divisions_exact l) (hr : terms_in_range l) (c : Int) (hc : p.coeff 0 = (c : ℚ)) :
    find_secret_c l = some (wrap128 c) := by
  rw [find_secret_c_of_in_range l hx hr]
  have h1 := sum_exact_term_cast l hx hex
  rw [lagrange_at_zero_eq_eval l hx p hdeg hon, ← Polynomial.coeff_zero_eq_eval_zero, hc] at h1
  have h2 : ((splits l).map exact_term).sum = c := by exact_mod_cast h1
  rw [h2]

open Polynomial

/-! ## Claims about `find_secret_c` -/

/-- The polynomial `X^2 + 3` over the rationals, on which the shares of the first embedded
test case lie. -/
theorem degree_X_sq_add_three : (X ^ 2 + C 3 : ℚ[X]).degree < ((3 : ℕ) : WithBot ℕ) := by
  rw [degree_X_pow_add_C (by norm_num)]
  decide

theorem eval_X_sq_add_three (x : ℚ) : (X ^ 2 + C 3 : ℚ[X]).eval x = x ^ 2 + 3 := by
  simp

theorem coeff_zero_X_sq_add_three : (X ^ 2 + C 3 : ℚ[X]).coeff 0 = 3 := by
  simp

/-- C1 (counterexample): the points `(1,4), (2,7), (4,19)` have distinct x-values and lie on
`x^2 + 3` (degree 2 < 3, constant term 3), but `find_secret_c` returns 2. -/
theorem C1_counterexample :
    ∃ p : ℚ[X], p.degree < (([⟨1, 4⟩, ⟨2, 7⟩, ⟨4, 19⟩] : List Point).length : WithBot ℕ) ∧
      (∀ pt ∈ ([⟨1, 4⟩, ⟨2, 7⟩, ⟨4, 19⟩] : List Point), p.eval (pt.x : ℚ) = (pt.y : ℚ)) ∧
      p.coeff 0 = ((3 : Int) : ℚ) ∧
      (([⟨1, 4⟩, ⟨2, 7⟩, ⟨4, 19⟩] : List Point).map Point.x).Nodup ∧
      find_secret_c [⟨1, 4⟩, ⟨2, 7⟩, ⟨4, 19⟩] = some 2 ∧
      find_secret_c [⟨1, 4⟩, ⟨2, 7⟩, ⟨4, 19⟩] ≠ some 3 := by
  refine ⟨X ^ 2 + C 3, degree_X_sq_add_three, ?_, ?_, by decide, by decide, by decide⟩
  · intro pt hpt
    simp only [List.mem_cons, List.mem_singleton, List.not_mem_nil, or_false] at hpt
    rcases hpt with rfl | rfl | rfl <;> rw [eval_X_sq_add_three] <;> norm_num
  · rw [coeff_zero_X_sq_add_three]; norm_num

/-- C1 (amended): for every list of `k` points with pairwise distinct x-values that all lie on
one polynomial of degree `< k` whose constant term is the integer `c`, if every per-term
division is exact and every denominator, every product `y_i * numerator_i`, every term and `c`
itself fit in the signed 128-bit range, then `find_secret_c` returns exactly `c`. -/
theorem C1_secret_of_exact_divisions (points : List Point) (p : ℚ[X]) (c : Int)
    (hx : (points.map Point.x).Nodup)
    (hdeg : p.degree < (points.length : WithBot ℕ))
    (hon : ∀ pt ∈ points, p.eval (pt.x : ℚ) = (pt.y : ℚ))
    (hc : p.coeff 0 = (c : ℚ))
    (hex : divisions_exact points) (hr : terms_in_range points) (hcr : InRange128 c) :
    find_secret_c points = some c := by
  rw [find_secret_c_of_exact points hx p hdeg hon hex hr c hc, wrap128_of_inRange hcr]

theorem C1_secret_of_exact_divisions_witness :
    ((([⟨1, 4⟩, ⟨2, 7⟩, ⟨3, 12⟩] : List Point).map Point.x).Nodup ∧
      (X ^ 2 + C 3 : ℚ[X]).degree
        < (([⟨1, 4⟩, ⟨2, 7⟩, ⟨3, 12⟩] : List Point).length : WithBot ℕ) ∧
      (∀ pt ∈ ([⟨1, 4⟩, ⟨2, 7⟩, ⟨3, 12⟩] : List Point),
        (X ^ 2 + C 3 : ℚ[X]).eval (pt.x : ℚ) = (pt.y : ℚ)) ∧
      (X ^ 2 + C 3 : ℚ[X]).coeff 0 = ((3 : Int) : ℚ) ∧
      divisions_exact [⟨1, 4⟩, ⟨2, 7⟩, ⟨3, 12⟩] ∧ terms_in_range [⟨1, 4⟩, ⟨2, 7⟩, ⟨3, 12⟩] ∧
      InRange128 3) ∧
    find_secret_c [⟨1, 4⟩, ⟨2, 7⟩, ⟨3, 12⟩] = some 3 :=
  have hon : ∀ pt ∈ ([⟨1, 4⟩, ⟨2, 7⟩, ⟨3, 12⟩] : List Point),
      (X ^ 2 + C 3 : ℚ[X]).eval (pt.x : ℚ) = (pt.y : ℚ) := by
    intro pt hpt
    simp only [List.mem_cons, List.mem_singleton, List.not_mem_nil, or_false] at hpt
    rcases hpt with rfl | rfl | rfl <;> rw [eval_X_sq_add_three] <;> norm_num
  have hc : (X ^ 2 + C 3 : ℚ[X]).coeff 0 = ((3 : Int) : ℚ) := by
    rw [coeff_zero_X_sq_add_three]; norm_num
  ⟨⟨by decide, degree_X_sq_add_three, hon, hc, by decide, by decide, by decide⟩,
    C1_secret_of_exact_divisions [⟨1, 4⟩, ⟨2, 7⟩, ⟨3, 12⟩] (X ^ 2 + C 3) 3 (by decide)
      degree_X_sq_add_three hon hc (by decide) (by decide) (by decide)⟩

/-- C2 (counterexample): on `[(1,4),(2,7),(3,12)]` the result of `find_secret_c` is not 2. -/
theorem C2_counterexample :
    find_secret_c [⟨1, 4⟩, ⟨2, 7⟩, ⟨3, 12⟩] ≠ some 2 := by
  decide

/-- C2 (amended): on `[(1,4),(2,7),(3,12)]`, three points of `y = x^2 + 3`, `find_secret_c`
returns 3, which is the exact Lagrange value at `x = 0`. -/
theorem C2_first_fixture_secret :
    find_secret_c [⟨1, 4⟩, ⟨2, 7⟩, ⟨3, 12⟩] = some 3 ∧
    lagrange_at_zero [⟨1, 4⟩, ⟨2, 7⟩, ⟨3, 12⟩] = 3 ∧
    (∀ pt ∈ ([⟨1, 4⟩, ⟨2, 7⟩, ⟨3, 12⟩] : List Point), pt.y = pt.x ^ 2 + 3) := by
  refine ⟨by decide, ?_, by decide⟩
  norm_num [lagrange_at_zero, splits, splits_aux, numerator_of, denominator_of]

/-- C3 (counterexample): the points `(1,0), (3,1)` have distinct x-values and the exact
Lagrange value `-1/2`, which is not an integer, but `find_secret_c` returns the integer 0. -/
theorem C3_counterexample :
    (([⟨1, 0⟩, ⟨3, 1⟩] : List Point).map Point.x).Nodup ∧
    lagrange_at_zero [⟨1, 0⟩, ⟨3, 1⟩] = -1 / 2 ∧
    find_secret_c [⟨1, 0⟩, ⟨3, 1⟩] = some 0 := by
  refine ⟨by decide, ?_, by decide⟩
  norm_num [lagrange_at_zero, splits, splits_aux, numerator_of, denominator_of]

/-- C3 (amended): for every point list with pairwise distinct x-values whose denominators fit
in the signed 128-bit range and whose exact rational Lagrange value at `x = 0` is not an
integer, `find_secret_c` reports no failure: it returns an integer (the wrapped sum of the
truncated per-term quotients), which therefore differs from the exact Lagrange value. -/
theorem C3_truncates_instead_of_failing (points : List Point)
    (hx : (points.map Point.x).Nodup)
    (hd : ∀ ip ∈ points.enum, InRange128 (inner_loop id points ip.1 ip.2.x).2)
    (hni : ∀ z : Int, lagrange_at_zero points ≠ (z : ℚ)) :
    ∃ v : Int, find_secret_c points = some v ∧
      v = wrap128 ((splits points).map wrapped_term).sum ∧
      (v : ℚ) ≠ lagrange_at_zero points := by
  have hd2 := (forall_enum_iff_splits (fun _ nd => InRange128 nd.2) points).mp hd
  exact ⟨_, find_secret_c_of_denominators_in_range points hx hd2, rfl, fun h => hni _ h.symm⟩

theorem lagrange_half_not_int (z : Int) : lagrange_at_zero [⟨1, 0⟩, ⟨3, 1⟩] ≠ (z : ℚ) := by
  have hv : lagrange_at_zero [⟨1, 0⟩, ⟨3, 1⟩] = -1 / 2 := by
    norm_num [lagrange_at_zero, splits, splits_aux, numerator_of, denominator_of]
  rw [hv]
  intro h
  have h2 : (2 * z : ℚ) = -1 := by rw [← h]; norm_num
  have h3 : 2 * z = -1 := by exact_mod_cast h2
  omega

theorem C3_truncates_instead_of_failing_witness :
    ((([⟨1, 0⟩, ⟨3, 1⟩] : List Point).map Point.x).Nodup ∧
      (∀ ip ∈ ([⟨1, 0⟩, ⟨3, 1⟩] : List Point).enum,
        InRange128 (inner_loop id [⟨1, 0⟩, ⟨3, 1⟩] ip.1 ip.2.x).2) ∧
      (∀ z : Int, lagrange_at_zero [⟨1, 0⟩, ⟨3, 1⟩] ≠ (z : ℚ))) ∧
    ∃ v : Int, find_secret_c [⟨1, 0⟩, ⟨3, 1⟩] = some v ∧
      v = wrap128 ((splits [⟨1, 0⟩, ⟨3, 1⟩]).map wrapped_term).sum ∧
      (v : ℚ) ≠ lagrange_at_zero [⟨1, 0⟩, ⟨3, 1⟩] :=
  ⟨⟨by decide, by decide, lagrange_half_not_int⟩,
    C3_truncates_instead_of_failing [⟨1, 0⟩, ⟨3, 1⟩] (by decide) (by decide)
      lagrange_half_not_int⟩

theorem eval_on_X_sq_add_three (l : List Point) (h : ∀ pt ∈ l, pt.y = pt.x ^ 2 + 3) :
    ∀ pt ∈ l, (X ^ 2 + C 3 : ℚ[X]).eval (pt.x : ℚ) = (pt.y : ℚ) := by
  intro pt hpt
  rw [eval_X_sq_add_three, h pt hpt]
  push_cast
  rfl

theorem nodup_map_x_of_subperm {s shares : List Point} (h : s.Subperm shares)
    (hx : (shares.map Point.x).Nodup) : (s.map Point.x).Nodup := by
  obtain ⟨l, hl, hsub⟩ := h
  exact ((hl.map Point.x).nodup_iff).mp (hx.sublist (hsub.map _))

/-- C4 (counterexample): the shares `(1,4), (2,7), (3,12), (6,39)` of the first embedded test
case have distinct x-values and all lie on `x^2 + 3`, but the 3-element subsets do not give
the same secret: `{1,2,3}` gives 3, the three subsets containing `(6,39)` give 2. -/
theorem C4_counterexample :
    (([⟨1, 4⟩, ⟨2, 7⟩, ⟨3, 12⟩, ⟨6, 39⟩] : List Point).map Point.x).Nodup ∧
    (∀ pt ∈ ([⟨1, 4⟩, ⟨2, 7⟩, ⟨3, 12⟩, ⟨6, 39⟩] : List Point),
      (X ^ 2 + C 3 : ℚ[X]).eval (pt.x : ℚ) = (pt.y : ℚ)) ∧
    (X ^ 2 + C 3 : ℚ[X]).degree < ((3 : ℕ) : WithBot ℕ) ∧
    find_secret_c [⟨1, 4⟩, ⟨2, 7⟩, ⟨3, 12⟩] = some 3 ∧
    find_secret_c [⟨1, 4⟩, ⟨2, 7⟩, ⟨6, 39⟩] = some 2 ∧
    find_secret_c [⟨1, 4⟩, ⟨3, 12⟩, ⟨6, 39⟩] = some 2 ∧
    find_secret_c [⟨2, 7⟩, ⟨3, 12⟩, ⟨6, 39⟩] = some 2 ∧
    find_secret_c [⟨1, 4⟩, ⟨2, 7⟩, ⟨3, 12⟩] ≠ find_secret_c [⟨1, 4⟩, ⟨2, 7⟩, ⟨6, 39⟩] :=
  ⟨by decide, eval_on_X_sq_add_three _ (by decide), degree_X_sq_add_three, by decide,
    by decide, by decide, by decide, by decide⟩

/-- C4 (amended): for shares with distinct x-values that all lie on one polynomial of degree
`< k`, `find_secret_c` returns the same value on any two `k`-element subsets of the shares
(listed in any order) in which every per-term division is exact and every denominator, product `y_i * numerator_i`
and term fits in the signed 128-bit range. -/
theorem C4_subsets_with_exact_divisions (shares s1 s2 : List Point) (p : ℚ[X]) (k : Nat)
    (hx : (shares.map Point.x).Nodup)
    (hon : ∀ pt ∈ shares, p.eval (pt.x : ℚ) = (pt.y : ℚ))
    (hdeg : p.degree < (k : WithBot ℕ))
    (h1 : s1.Subperm shares) (h2 : s2.Subperm shares)
    (hk1 : s1.length = k) (hk2 : s2.length = k)
    (hex1 : divisions_exact s1) (hex2 : divisions_exact s2)
    (hr1 : terms_in_range s1) (hr2 : terms_in_range s2) :
    find_secret_c s1 = find_secret_c s2 := by
  have hx1 : (s1.map Point.x).Nodup := nodup_map_x_of_subperm h1 hx
  have hx2 : (s2.map Point.x).Nodup := nodup_map_x_of_subperm h2 hx
  have e1 := sum_exact_term_cast s1 hx1 hex1
  have e2 := sum_exact_term_cast s2 hx2 hex2
  rw [lagrange_at_zero_eq_eval s1 hx1 p (by rw [hk1]; exact hdeg)
    (fun pt hpt => hon pt (h1.subset hpt))] at e1
  rw [lagrange_at_zero_eq_eval s2 hx2 p (by rw [hk2]; exact hdeg)
    (fun pt hpt => hon pt (h2.subset hpt))] at e2
  have e : ((splits s1).map exact_term).sum = ((splits s2).map exact_term).sum := by
    exact_mod_cast e1.trans e2.symm
  rw [find_secret_c_of_in_range s1 hx1 hr1, find_secret_c_of_in_range s2 hx2 hr2, e]

theorem C4_subsets_with_exact_divisions_witness :
    ((([⟨1, 4⟩, ⟨2, 7⟩, ⟨3, 12⟩, ⟨4, 19⟩] : List Point).map Point.x).Nodup ∧
      (∀ pt ∈ ([⟨1, 4⟩, ⟨2, 7⟩, ⟨3, 12⟩, ⟨4, 19⟩] : List Point),
        (X ^ 2 + C 3 : ℚ[X]).eval (pt.x : ℚ) = (pt.y : ℚ)) ∧
      (X ^ 2 + C 3 : ℚ[X]).degree < ((3 : ℕ) : WithBot ℕ) ∧
      ([⟨1, 4⟩, ⟨2, 7⟩, ⟨3, 12⟩] : List Point).Subperm [⟨1, 4⟩, ⟨2, 7⟩, ⟨3, 12⟩, ⟨4, 19⟩] ∧
      ([⟨2, 7⟩, ⟨3, 12⟩, ⟨4, 19⟩] : List Point).Subperm [⟨1, 4⟩, ⟨2, 7⟩, ⟨3, 12⟩, ⟨4, 19⟩] ∧
      ([⟨1, 4⟩, ⟨2, 7⟩, ⟨3, 12⟩] : List Point).length = 3 ∧
      ([⟨2, 7⟩, ⟨3, 12⟩, ⟨4, 19⟩] : List Point).length = 3 ∧
      divisions_exact [⟨1, 4⟩, ⟨2, 7⟩, ⟨3, 12⟩] ∧ divisions_exact [⟨2, 7⟩, ⟨3, 12⟩, ⟨4, 19⟩] ∧
      terms_in_range [⟨1, 4⟩, ⟨2, 7⟩, ⟨3, 12⟩] ∧ terms_in_range [⟨2, 7⟩, ⟨3, 12⟩, ⟨4, 19⟩]) ∧
    find_secret_c [⟨1, 4⟩, ⟨2, 7⟩, ⟨3, 12⟩] = find_secret_c [⟨2, 7⟩, ⟨3, 12⟩, ⟨4, 19⟩] :=
  ⟨⟨by decide, eval_on_X_sq_add_three _ (by decide), degree_X_sq_add_three, by decide,
      by decide, rfl, rfl, by decide, by decide, by decide, by decide⟩,
    C4_subsets_with_exact_divisions [⟨1, 4⟩, ⟨2, 7⟩, ⟨3, 12⟩, ⟨4, 19⟩] [⟨1, 4⟩, ⟨2, 7⟩, ⟨3, 12⟩]
      [⟨2, 7⟩, ⟨3, 12⟩, ⟨4, 19⟩] (X ^ 2 + C 3) 3 (by decide)
      (eval_on_X_sq_add_three _ (by decide)) degree_X_sq_add_three (by decide) (by decide)
      rfl rfl (by decide) (by decide) (by decide) (by decide)⟩

/-- C5: for every point list and every permutation of it, `find_secret_c` (128-bit arithmetic,
truncating per-term division included) returns the same result on both. -/
theorem C5_order_independent (points permuted : List Point) (h : points.Perm permuted) :
    find_secret_c permuted = find_secret_c points :=
  (find_secret_c_perm h).symm

theorem C5_order_independent_witness :
    ([⟨1, 4⟩, ⟨2, 7⟩, ⟨6, 39⟩] : List Point).Perm [⟨6, 39⟩, ⟨1, 4⟩, ⟨2, 7⟩] ∧
    find_secret_c [⟨6, 39⟩, ⟨1, 4⟩, ⟨2, 7⟩] = find_secret_c [⟨1, 4⟩, ⟨2, 7⟩, ⟨6, 39⟩] :=
  ⟨by decide, C5_order_independent _ _ (by decide)⟩

theorem inner_loop_wrap_split (pre rest : List Point) (p : Point) (xi : Int) :
    inner_loop wrap128 (pre ++ p :: rest) pre.length xi
      = (wrap128 (numerator_of (pre ++ rest)), wrap128 (denominator_of xi (pre ++ rest))) := by
  have h := foldl_basis_step_wrap xi (pre ++ rest) 1 1
  rw [wrap128_one] at h
  rw [inner_loop_split, h, one_mul, one_mul]

/-- The denominator that the inner loop computes for position `i` is zero when another position
`j` holds the same x-value. -/
theorem inner_loop_denominator_eq_zero (points : List Point) (i j : Nat) (p q : Point)
    (hij : i ≠ j) (hi : points[i]? = some p) (hj : points[j]? = some q) (hx : p.x = q.x) :
    (inner_loop wrap128 points i p.x).2 = 0 := by
  obtain ⟨hlt, hget⟩ := List.getElem?_eq_some.mp hi
  have hsplit : points = points.take i ++ p :: points.drop (i + 1) := by
    rw [← hget, ← List.drop_eq_getElem_cons hlt, List.take_append_drop]
  have hlen : (points.take i).length = i := by
    rw [List.length_take]; omega
  have hq : q ∈ points.take i ++ points.drop (i + 1) := by
    rw [List.mem_append]
    rcases Nat.lt_or_gt_of_ne hij with h | h
    · right
      have : (points.drop (i + 1))[j - (i + 1)]? = some q := by
        rw [List.getElem?_drop, ← hj]
        congr 1
        omega
      exact List.getElem?_mem this
    · left
      have : (points.take i)[j]? = some q := by
        rw [List.getElem?_take_of_lt h, hj]
      exact List.getElem?_mem this
  have h := inner_loop_wrap_split (points.take i) (points.drop (i + 1)) p p.x
  rw [← hsplit, hlen] at h
  rw [h]
  show wrap128 (denominator_of p.x (points.take i ++ points.drop (i + 1))) = 0
  rw [denominator_of_eq_zero p q _ hq hx]
  exact wrap128_zero

/-- No input makes `find_secret_c` signal a failure kind. -/
theorem find_secret_c_outcome_ne_signalled (points : List Point) (e : ErrorKind) :
    find_secret_c_outcome points ≠ Outcome.signalled e := by
  unfold find_secret_c_outcome
  cases find_secret_c points <;> simp


/-- Two different positions with the same x-value: the model of `find_secret_c` has no value. -/
theorem find_secret_c_none_of_duplicate_index (points : List Point) (i j : Nat) (p q : Point)
    (hij : i ≠ j) (hi : points[i]? = some p) (hj : points[j]? = some q) (hx : p.x = q.x) :
    find_secret_c points = none := by
  apply find_secret_c_not_nodup
  intro hnd
  have key : ∀ a b : Nat, a < b → (points.map Point.x)[a]? = some p.x →
      (points.map Point.x)[b]? = some p.x → False := by
    intro a b hab ha hb
    have hb2 : b < (points.map Point.x).length := by
      by_contra hcon
      rw [List.getElem?_eq_none (by omega)] at hb
      exact absurd hb (by simp)
    exact (List.nodup_iff_getElem?_ne_getElem?.mp hnd a b hab hb2) (ha.trans hb.symm)
  have h1 : (points.map Point.x)[i]? = some p.x := by simp [hi]
  have h2 : (points.map Point.x)[j]? = some p.x := by simp [hj, hx]
  rcases Nat.lt_or_gt_of_ne hij with h | h
  · exact key i j h h1 h2
  · exact key j i h h2 h1

/-- C6 (counterexample): on `[(5,1),(7,2),(5,3)]` the points at positions 0 and 2 have the same
x-value; the inner loop yields numerator 35 and denominator 0 for position 0, and
`find_secret_c` divides by that denominator at line 63: it signals no `DegenerateInput`. -/
theorem C6_counterexample :
    ([⟨5, 1⟩, ⟨7, 2⟩, ⟨5, 3⟩] : List Point)[0]? = some ⟨5, 1⟩ ∧
    ([⟨5, 1⟩, ⟨7, 2⟩, ⟨5, 3⟩] : List Point)[2]? = some ⟨5, 3⟩ ∧
    inner_loop wrap128 [⟨5, 1⟩, ⟨7, 2⟩, ⟨5, 3⟩] 0 5 = (35, 0) ∧
    find_secret_c_outcome [⟨5, 1⟩, ⟨7, 2⟩, ⟨5, 3⟩] = Outcome.undefined_division_by_zero ∧
    find_secret_c_outcome [⟨5, 1⟩, ⟨7, 2⟩, ⟨5, 3⟩]
      ≠ Outcome.signalled ErrorKind.DegenerateInput := by
  decide

/-- C6 (amended): when the points at two different positions `i ≠ j` have the same x-value,
`find_secret_c` signals no `DegenerateInput` and no other failure kind: the inner loop computes
the denominator 0 for both positions, and the function executes the unchecked division by zero
of line 63, whose behaviour is undefined; no value is returned. -/
theorem C6_duplicate_x_divides_by_zero (points : List Point) (i j : Nat) (p q : Point)
    (hij : i ≠ j) (hi : points[i]? = some p) (hj : points[j]? = some q) (hx : p.x = q.x) :
    (inner_loop wrap128 points i p.x).2 = 0 ∧
    (inner_loop wrap128 points j q.x).2 = 0 ∧
    find_secret_c_outcome points = Outcome.undefined_division_by_zero ∧
    (∀ e : ErrorKind, find_secret_c_outcome points ≠ Outcome.signalled e) ∧
    (∀ v : Int, find_secret_c_outcome points ≠ Outcome.returned v) := by
  have hnone : find_secret_c points = none :=
    find_secret_c_none_of_duplicate_index points i j p q hij hi hj hx
  have hout : find_secret_c_outcome points = Outcome.undefined_division_by_zero := by
    unfold find_secret_c_outcome
    rw [hnone]
  refine ⟨inner_loop_denominator_eq_zero points i j p q hij hi hj hx,
    inner_loop_denominator_eq_zero points j i q p (Ne.symm hij) hj hi hx.symm, hout,
    find_secret_c_outcome_ne_signalled points, ?_⟩
  intro v
  rw [hout]
  simp

theorem C6_duplicate_x_divides_by_zero_witness :
    ((0 : Nat) ≠ 2 ∧ ([⟨5, 1⟩, ⟨7, 2⟩, ⟨5, 3⟩] : List Point)[0]? = some ⟨5, 1⟩ ∧
      ([⟨5, 1⟩, ⟨7, 2⟩, ⟨5, 3⟩] : List Point)[2]? = some ⟨5, 3⟩ ∧
      (⟨5, 1⟩ : Point).x = (⟨5, 3⟩ : Point).x) ∧
    ((inner_loop wrap128 [⟨5, 1⟩, ⟨7, 2⟩, ⟨5, 3⟩] 0 (⟨5, 1⟩ : Point).x).2 = 0 ∧
      (inner_loop wrap128 [⟨5, 1⟩, ⟨7, 2⟩, ⟨5, 3⟩] 2 (⟨5, 3⟩ : Point).x).2 = 0 ∧
      find_secret_c_outcome [⟨5, 1⟩, ⟨7, 2⟩, ⟨5, 3⟩] = Outcome.undefined_division_by_zero ∧
      (∀ e : ErrorKind,
        find_secret_c_outcome [⟨5, 1⟩, ⟨7, 2⟩, ⟨5, 3⟩] ≠ Outcome.signalled e) ∧
      (∀ v : Int, find_secret_c_outcome [⟨5, 1⟩, ⟨7, 2⟩, ⟨5, 3⟩] ≠ Outcome.returned v)) :=
  ⟨by decide, C6_duplicate_x_divides_by_zero _ 0 2 ⟨5, 1⟩ ⟨5, 3⟩ (by decide) (by decide)
    (by decide) (by decide)⟩

/-! ## Claims about `decode_y_value` -/

/-- C7 (counterexample): the base-2 digit string of `n = 2^127` is decoded to `-2^127`,
not to `n`: the 128-bit accumulator wraps around. -/
theorem C7_counterexample :
    to_base_b_string (2 ^ 127) 2 = '1' :: List.replicate 127 '0' ∧
    decode_y_value (to_base_b_string (2 ^ 127) 2) 2 = -((2 ^ 127 : Nat) : Int) ∧
    decode_y_value (to_base_b_string (2 ^ 127) 2) 2 ≠ ((2 ^ 127 : Nat) : Int) := by
  have h := positional_value_to_base_b_string (2 ^ 127) 2 (by decide) (by decide)
  simp only [Nat.cast_ofNat] at h
  refine ⟨by simp [to_base_b_string, digit_char], ?_⟩
  rw [decode_y_value_eq_wrap, h]
  decide

/-- C7 (amended): for every base `b` in `[2,36]` and every `n` with `0 ≤ n ≤ 2^127 - 1`,
decoding the standard base-`b` digit string of `n` in base `b` returns `n`. -/
theorem C7_decode_round_trip (b n : Nat) (hb2 : 2 ≤ b) (hb36 : b ≤ 36)
    (hn : n ≤ 2 ^ 127 - 1) :
    decode_y_value (to_base_b_string n b) b = (n : Int) := by
  rw [decode_y_value_eq_wrap, positional_value_to_base_b_string n b hb2 hb36]
  apply wrap128_of_inRange
  unfold InRange128
  norm_num at hn ⊢
  omega

theorem C7_decode_round_trip_witness :
    (2 ≤ 16 ∧ 16 ≤ 36 ∧ 48879 ≤ 2 ^ 127 - 1) ∧
      decode_y_value (to_base_b_string 48879 16) 16 = ((48879 : Nat) : Int) :=
  ⟨by decide, C7_decode_round_trip 16 48879 (by decide) (by decide) (by decide)⟩

/-- C8 (counterexample): the 32-digit string `ff...f` is valid in base 16 and has positional
value `2^128 - 1`, but `decode_y_value` returns `-1`. -/
theorem C8_counterexample :
    (∀ c ∈ "ffffffffffffffffffffffffffffffff".toList, valid_digit 16 c) ∧
    positional_value 16 "ffffffffffffffffffffffffffffffff".toList
      = ((2 ^ 128 - 1 : Nat) : Int) ∧
    decode_y_value "ffffffffffffffffffffffffffffffff".toList 16 = -1 := by
  refine ⟨by decide, ?_, ?_⟩
  · simp [positional_value, digit, isdigit, tolower]
  · simp [decode_y_value, decode_y_value_with, digit, isdigit, tolower, wrap128]

/-- C8 (amended): for every base `b` in `[2,36]` and every digit string valid in base `b`
whose positional value is at most `2^127 - 1`, `decode_y_value` (left-to-right Horner
evaluation from 0) returns the positional value `sum_i digit(d_i) * b^(m-1-i)`; in particular
`"111"` in base 2 gives 7 and `"213"` in base 4 gives 39. -/
theorem C8_decode_positional (b : Int) (s : List Char) (hb2 : 2 ≤ b) (hb36 : b ≤ 36)
    (hs : ∀ c ∈ s, valid_digit b c)
    (hfit : positional_value b s ≤ ((2 ^ 127 : Nat) : Int) - 1) :
    decode_y_value s b = positional_value b s ∧
    decode_y_value "111".toList 2 = 7 ∧ decode_y_value "213".toList 4 = 39 := by
  refine ⟨?_, by decide, by decide⟩
  rw [decode_y_value_eq_wrap]
  apply wrap128_of_inRange
  have h0 := positional_value_nonneg b (by omega) s hs
  exact ⟨le_trans (by decide) h0, hfit⟩

theorem C8_decode_positional_witness :
    ((2 : Int) ≤ 4 ∧ (4 : Int) ≤ 36 ∧ (∀ c ∈ "213".toList, valid_digit 4 c) ∧
      positional_value 4 "213".toList ≤ ((2 ^ 127 : Nat) : Int) - 1) ∧
    (decode_y_value "213".toList 4 = positional_value 4 "213".toList ∧
      decode_y_value "111".toList 2 = 7 ∧ decode_y_value "213".toList 4 = 39) :=
  ⟨by decide, C8_decode_positional 4 "213".toList (by decide) (by decide) (by decide)
    (by decide)⟩

/-- C9 (counterexample): `decode_y_value` returns 0 on the empty string, 2 on `"2"` in base 2
and 35 on `"z"` in base 10; none of these inputs is rejected. -/
theorem C9_counterexample :
    decode_y_value [] 10 = 0 ∧ decode_y_value "2".toList 2 = 2 ∧
    decode_y_value "z".toList 10 = 35 ∧ decode_y_value "-5".toList 10 = -415 := by
  decide

/-- C9 (amended): `decode_y_value` validates nothing and always returns a 128-bit integer:
the empty string decodes to 0, and every further character `c`, valid digit or not,
contributes one Horner step `result * base + digit c`, where `digit c` is `c - '0'` for
`'0'`..`'9'` and `tolower(c) - 'a' + 10` for every other character. -/
theorem C9_decode_no_validation (s : List Char) (c : Char) (b : Int) :
    decode_y_value [] b = 0 ∧
    decode_y_value (s ++ [c]) b = wrap128 (decode_y_value s b * b + digit c) ∧
    InRange128 (decode_y_value s b) ∧
    (digit c = if isdigit c then (c.toNat : Int) - 48 else tolower c - 97 + 10) := by
  refine ⟨rfl, ?_, ?_, rfl⟩
  · unfold decode_y_value decode_y_value_with
    rw [List.foldl_append]
    simp only [List.foldl_cons, List.foldl_nil]
    rw [wrap128_add_left]
  · rw [decode_y_value_eq_wrap]
    exact wrap128_inRange _

/-- C10 (counterexample): bases 1, 0, -3 and 37 are not rejected; `decode_y_value` returns a
value for each of them. -/
theorem C10_counterexample :
    decode_y_value "11".toList 1 = 2 ∧ decode_y_value "12".toList 0 = 2 ∧
    decode_y_value "12".toList (-3) = -1 ∧ decode_y_value "12".toList 37 = 39 := by
  decide

/-- C10 (amended): `decode_y_value` performs no base check: for every base outside `[2,36]`
and every digit string it returns the positional value `sum_i digit(d_i) * base^(m-1-i)`
reduced to the signed 128-bit range. -/
theorem C10_decode_any_base (b : Int) (s : List Char) (_hb : b < 2 ∨ 36 < b) :
    decode_y_value s b = wrap128 (positional_value b s) :=
  decode_y_value_eq_wrap s b

theorem C10_decode_any_base_witness :
    ((37 : Int) < 2 ∨ (36 : Int) < 37) ∧
    decode_y_value "12".toList 37 = wrap128 (positional_value 37 "12".toList) :=
  ⟨by decide, C10_decode_any_base 37 "12".toList (by decide)⟩

/-! ## Claims C11 to C19 -/

theorem digit_toUpper_eq_toLower (c : Char) : digit c.toUpper = digit c.toLower := by
  by_cases hl : 97 ≤ c.toNat ∧ c.toNat ≤ 122
  · have hc : c = Char.ofNat c.toNat := (Char.ofNat_toNat c).symm
    obtain ⟨h1, h2⟩ := hl
    generalize c.toNat = n at hc h1 h2
    subst hc
    interval_cases n <;> decide
  · by_cases hu : 65 ≤ c.toNat ∧ c.toNat ≤ 90
    · have hc : c = Char.ofNat c.toNat := (Char.ofNat_toNat c).symm
      obtain ⟨h1, h2⟩ := hu
      generalize c.toNat = n at hc h1 h2
      subst hc
      interval_cases n <;> decide
    · have e1 : c.toUpper = c := by
        unfold Char.toUpper
        simp only [ge_iff_le]
        rw [if_neg hl]
      have e2 : c.toLower = c := by
        unfold Char.toLower
        simp only [ge_iff_le]
        rw [if_neg hu]
      rw [e1, e2]

theorem digit_of_decimal (c : Char) (h1 : 48 ≤ c.toNat) (h2 : c.toNat ≤ 57) :
    digit c = (c.toNat : Int) - 48 := by
  unfold digit isdigit
  simp [h1, h2]

theorem digit_of_lower (c : Char) (h1 : 97 ≤ c.toNat) (h2 : c.toNat ≤ 122) :
    digit c = (c.toNat : Int) - 97 + 10 := by
  unfold digit isdigit tolower
  have h3 : ¬ c.toNat ≤ 57 := by omega
  have h4 : ¬ c.toNat ≤ 90 := by omega
  simp [h3, h4]

theorem digit_of_upper (c : Char) (h1 : 65 ≤ c.toNat) (h2 : c.toNat ≤ 90) :
    digit c = (c.toNat : Int) - 65 + 10 := by
  unfold digit isdigit tolower
  have h3 : ¬ c.toNat ≤ 57 := by omega
  simp [h1, h2, h3]
  ring

theorem positional_value_map_congr (b : Int) (f g : Char → Char)
    (h : ∀ c, digit (f c) = digit (g c)) (s : List Char) :
    positional_value b (s.map f) = positional_value b (s.map g) := by
  induction s with
  | nil => rfl
  | cons c cs ih => simp only [List.map_cons, positional_value, h c, ih, List.length_map]

/-- C11: digit letters are case-insensitive: for every base (in particular every base in
`[2,36]`) and every digit string `s` (in particular every string valid in that base), decoding
`s` with all letters upper-cased gives the same value as decoding `s` with all letters
lower-cased; `'0'`..`'9'` are worth 0..9, `'a'`..`'z'` and `'A'`..`'Z'` are worth 10..35. -/
theorem C11_case_insensitive (b : Int) (s : List Char) :
    decode_y_value (s.map Char.toUpper) b = decode_y_value (s.map Char.toLower) b ∧
    (∀ c : Char, 48 ≤ c.toNat → c.toNat ≤ 57 → digit c = (c.toNat : Int) - 48) ∧
    (∀ c : Char, 97 ≤ c.toNat → c.toNat ≤ 122 → digit c = (c.toNat : Int) - 97 + 10) ∧
    (∀ c : Char, 65 ≤ c.toNat → c.toNat ≤ 90 → digit c = (c.toNat : Int) - 65 + 10) := by
  refine ⟨?_, digit_of_decimal, digit_of_lower, digit_of_upper⟩
  rw [decode_y_value_eq_wrap, decode_y_value_eq_wrap,
    positional_value_map_congr b _ _ digit_toUpper_eq_toLower]

/-! ## The second embedded test case -/

set_option maxRecDepth 8000 in
theorem testcase2_points_eq :
    testcase2_points =
      [⟨1, 995085094601491⟩, ⟨2, 21394886326566393⟩, ⟨3, 196563650089608567⟩,
       ⟨4, 1016509518118225951⟩, ⟨5, 3711974121218449851⟩, ⟨6, 10788619898233492461⟩,
       ⟨7, 26709394976508342463⟩] := by
  decide

set_option maxRecDepth 8000 in
theorem testcase2_points_unbounded :
    decode_points_with id testcase2_records = testcase2_points := by
  decide

/-- C12: for the seven shares (keys 1..7, `k = 7`) of the second embedded test case, decoding
and interpolating in signed 128-bit arithmetic never overflows: every decoded y, every
numerator, denominator, product `y * numerator`, term and partial sum lies in
`[-2^127, 2^127 - 1]` and is the same in 128-bit and in unbounded arithmetic, so the 128-bit
result of `find_secret_c` equals the result over unbounded integers, `79836264049851`, and this
is the exact Lagrange value at 0, every per-term division being exact. -/
theorem C12_second_fixture_no_overflow :
    testcase2_points =
      [⟨1, 995085094601491⟩, ⟨2, 21394886326566393⟩, ⟨3, 196563650089608567⟩,
       ⟨4, 1016509518118225951⟩, ⟨5, 3711974121218449851⟩, ⟨6, 10788619898233492461⟩,
       ⟨7, 26709394976508342463⟩] ∧
    decode_points_with id testcase2_records = testcase2_points ∧
    (∀ pt ∈ testcase2_points, InRange128 pt.y) ∧
    (∀ ip ∈ testcase2_points.enum,
      inner_loop wrap128 testcase2_points ip.1 ip.2.x
        = inner_loop id testcase2_points ip.1 ip.2.x ∧
      InRange128 (inner_loop id testcase2_points ip.1 ip.2.x).1) ∧
    terms_in_range testcase2_points ∧
    divisions_exact testcase2_points ∧
    (List.range 8).map (partial_secret wrap128 testcase2_points)
      = (List.range 8).map (partial_secret id testcase2_points) ∧
    (List.range 8).map (partial_secret id testcase2_points)
      = [some 0, some 6965595662210437, some (-442327017195683816), some 6437400735940616029,
         some (-29140432398197292256), some 48811024147390154615,
         some (-26709315140244292612), some 79836264049851] ∧
    (∀ s ∈ ([0, 6965595662210437, -442327017195683816, 6437400735940616029,
         -29140432398197292256, 48811024147390154615, -26709315140244292612,
         79836264049851] : List Int), InRange128 s) ∧
    find_secret_c testcase2_points = some 79836264049851 ∧
    find_secret_c_unbounded testcase2_points = find_secret_c testcase2_points ∧
    lagrange_at_zero testcase2_points = 79836264049851 := by
  have hex : divisions_exact testcase2_points := by
    rw [testcase2_points_eq]; decide
  have hsum : find_secret_c_unbounded testcase2_points = some 79836264049851 := by
    rw [testcase2_points_eq]; decide
  have hnd : (testcase2_points.map Point.x).Nodup := by
    rw [testcase2_points_eq]; decide
  refine ⟨testcase2_points_eq, testcase2_points_unbounded, ?_, ?_, ?_, hex, ?_, ?_, ?_, ?_, ?_, ?_⟩
  · rw [testcase2_points_eq]; decide
  · rw [testcase2_points_eq]; decide
  · rw [testcase2_points_eq]; decide
  · rw [testcase2_points_eq]; decide
  · rw [testcase2_points_eq]; decide
  · decide
  · rw [testcase2_points_eq]; decide
  · rw [hsum, testcase2_points_eq]; decide
  · have h1 := sum_exact_term_cast testcase2_points hnd hex
    rw [← h1]
    have h2 : find_secret_c_unbounded testcase2_points
        = some ((splits testcase2_points).map exact_term).sum := by
      rw [find_secret_c_unbounded_eq,
        if_neg (fun ⟨po, hpo, h0⟩ => denominator_of_ne_zero testcase2_points hnd po hpo h0)]
    rw [hsum] at h2
    have h3 := Option.some.inj h2
    rw [← h3]
    norm_num

/-- C13 (counterexample): on the empty point list `find_secret_c` does not fail. -/
theorem C13_counterexample : find_secret_c [] ≠ none := by
  decide

/-- C13 (amended): `find_secret_c` has no check on the number of points: on the empty point
list neither loop runs and it returns the initial value 0 of `secret`, in 128-bit arithmetic
and over unbounded integers alike. -/
theorem C13_empty_list_returns_zero :
    find_secret_c [] = some 0 ∧ find_secret_c_unbounded [] = some 0 := by
  decide

/-! ## Points with x-values 1, 2, ..., k -/

theorem exists_split_of_mem_splits_aux (post : List Point) :
    ∀ (pre : List Point) (po : Point × List Point), po ∈ splits_aux pre post →
      ∃ a rest, post = a ++ po.1 :: rest ∧ po.2 = pre ++ a ++ rest := by
  induction post with
  | nil => intro pre po h; simp [splits_aux] at h
  | cons p rest ih =>
    intro pre po h
    simp only [splits_aux, List.mem_cons] at h
    rcases h with h | h
    · subst h
      exact ⟨[], rest, rfl, by simp⟩
    · obtain ⟨a, r, h1, h2⟩ := ih (pre ++ [p]) po h
      exact ⟨p :: a, r, by simp [h1], by simp [h2]⟩

theorem exists_split_of_mem_splits (l : List Point) (po : Point × List Point)
    (h : po ∈ splits l) : ∃ pre rest, l = pre ++ po.1 :: rest ∧ po.2 = pre ++ rest := by
  obtain ⟨a, r, h1, h2⟩ := exists_split_of_mem_splits_aux l [] po h
  exact ⟨a, r, h1, by simpa using h2⟩

theorem numerator_of_append (a b : List Point) :
    numerator_of (a ++ b) = numerator_of a * numerator_of b := by
  simp [numerator_of]

theorem denominator_of_append (xi : Int) (a b : List Point) :
    denominator_of xi (a ++ b) = denominator_of xi a * denominator_of xi b := by
  simp [denominator_of]

/-- The product of `-j` for `j = s+1, ..., s+n`, cleared of its denominator `s!`. -/
theorem prod_neg_range (s n : Nat) :
    ((List.range' (s + 1) n).map (fun j : Nat => -(j : Int))).prod * (Nat.factorial s : Int)
      = (-1) ^ n * (Nat.factorial (s + n) : Int) := by
  induction n with
  | zero => simp
  | succ n ih =>
    rw [List.range'_1_concat, List.map_append, List.prod_append, List.map_singleton,
      List.prod_singleton, mul_right_comm, ih, ← add_assoc, Nat.factorial_succ]
    push_cast
    ring

/-- The product of `c - j` for `j = 1, ..., m`, where `c = m + 1 + e`. -/
theorem prod_sub_range_below (m e : Nat) :
    ((List.range' 1 m).map (fun j : Nat => ((m + 1 + e : Nat) : Int) - (j : Int))).prod
        * (Nat.factorial e : Int) = (Nat.factorial (m + e) : Int) := by
  have key : ∀ t : Nat, t ≤ m →
      ((List.range' 1 t).map (fun j : Nat => ((m + 1 + e : Nat) : Int) - (j : Int))).prod
        * (Nat.factorial (m + e - t) : Int) = (Nat.factorial (m + e) : Int) := by
    intro t
    induction t with
    | zero => intro _; simp
    | succ t ih =>
      intro ht
      have h1 : m + e - t = (m + e - (t + 1)) + 1 := by omega
      have ih2 := ih (by omega)
      rw [h1, Nat.factorial_succ] at ih2
      rw [List.range'_1_concat, List.map_append, List.prod_append, List.map_singleton,
        List.prod_singleton, ← ih2]
      have h3 : (((m + 1 + e : Nat) : Int) - ((1 + t : Nat) : Int))
          = ((m + e - (t + 1) + 1 : Nat) : Int) := by omega
      rw [h3]
      push_cast
      ring
  have := key m le_rfl
  rwa [Nat.add_sub_cancel_left] at this

/-- The product of `i - j` for `j = i+1, ..., i+n`. -/
theorem prod_sub_range_above (i n : Nat) :
    ((List.range' (i + 1) n).map (fun j : Nat => (i : Int) - (j : Int))).prod
      = (-1) ^ n * (Nat.factorial n : Int) := by
  induction n with
  | zero => simp
  | succ n ih =>
    rw [List.range'_1_concat, List.map_append, List.prod_append, List.map_singleton,
      List.prod_singleton, ih, Nat.factorial_succ]
    push_cast
    ring


theorem numerator_of_eq_of_map_x (o : List Point) (L : List Nat)
    (h : o.map Point.x = L.map (fun j : Nat => (j : Int))) :
    numerator_of o = (L.map (fun j : Nat => -(j : Int))).prod := by
  have : o.map (fun q => -q.x) = (o.map Point.x).map (fun x => -x) := by
    rw [List.map_map]; rfl
  rw [numerator_of, this, h, List.map_map]
  rfl

theorem denominator_of_eq_of_map_x (xi : Int) (o : List Point) (L : List Nat)
    (h : o.map Point.x = L.map (fun j : Nat => (j : Int))) :
    denominator_of xi o = (L.map (fun j : Nat => xi - (j : Int))).prod := by
  have : o.map (fun q => xi - q.x) = (o.map Point.x).map (fun x => xi - x) := by
    rw [List.map_map]; rfl
  rw [denominator_of, this, h, List.map_map]
  rfl

/-- With x-values `1, ..., k`, the numerator of the point with `x = i` is its denominator times
`(-1)^(i+1) * C(k, i)`. -/
theorem numerator_eq_denominator_mul_choose (points : List Point) (k : Nat)
    (hx : points.map Point.x = (List.range' 1 k).map (fun j : Nat => (j : Int)))
    (po : Point × List Point) (hpo : po ∈ splits points) :
    numerator_of po.2 = denominator_of po.1.x po.2
      * ((-1) ^ (po.1.x.toNat + 1) * (Nat.choose k po.1.x.toNat : Int)) := by
  obtain ⟨pre, rest, hsplit, hothers⟩ := exists_split_of_mem_splits points po hpo
  have hlen : k = pre.length + (1 + rest.length) := by
    have := congrArg List.length hx
    rw [hsplit] at this
    simp at this
    omega
  have hr : List.range' 1 k
      = List.range' 1 pre.length ++ (pre.length + 1) :: List.range' (pre.length + 1 + 1)
          rest.length := by
    have hlen2 : k = rest.length + 1 + pre.length := by omega
    rw [hlen2, ← List.range'_append_1 1 pre.length (rest.length + 1), List.range'_succ,
      Nat.add_comm 1 pre.length]
  rw [hsplit, hr, List.map_append, List.map_append, List.map_cons, List.map_cons] at hx
  obtain ⟨hpre, htail⟩ := List.append_inj hx (by simp)
  obtain ⟨hp, hrest⟩ := List.cons.inj htail
  have hN1 := prod_neg_range 0 pre.length
  have hN2 := prod_neg_range (pre.length + 1) rest.length
  have hD1 := prod_sub_range_below pre.length 0
  have hD2 := prod_sub_range_above (pre.length + 1) rest.length
  simp only [zero_add, Nat.factorial_zero, Nat.cast_one, mul_one, add_zero] at hN1 hD1
  have hxi : po.1.x.toNat = pre.length + 1 := by rw [hp]; simp
  have hch := Nat.choose_mul_factorial_mul_factorial (n := k) (k := pre.length + 1) (by omega)
  have hkn : k - (pre.length + 1) = rest.length := by omega
  rw [hkn] at hch
  have hchZ : ((Nat.choose k (pre.length + 1) : Nat) : Int) * (Nat.factorial (pre.length + 1) : Int)
      * (Nat.factorial rest.length : Int) = (Nat.factorial k : Int) := by exact_mod_cast hch
  rw [hothers, numerator_of_append, denominator_of_append,
    numerator_of_eq_of_map_x pre _ hpre, numerator_of_eq_of_map_x rest _ hrest,
    denominator_of_eq_of_map_x po.1.x pre _ hpre, denominator_of_eq_of_map_x po.1.x rest _ hrest,
    hxi, hp, hN1, hD1, hD2]
  have hfac : (Nat.factorial (pre.length + 1) : Int) ≠ 0 := by exact_mod_cast Nat.factorial_ne_zero _
  apply mul_right_cancel₀ hfac
  rw [mul_assoc, hN2]
  have hk2 : pre.length + 1 + rest.length = k := by omega
  rw [hk2, ← hchZ]
  ring


theorem nodup_map_x_of_consecutive (points : List Point) (k : Nat)
    (hx : points.map Point.x = (List.range' 1 k).map (fun j : Nat => (j : Int))) :
    (points.map Point.x).Nodup := by
  rw [hx]
  exact (List.nodup_range' 1 k).map Nat.cast_injective

/-- C14: for every list of `k` points whose x-values are `1, 2, ..., k`, with arbitrary integer
y-values, every per-term division in `find_secret_c` is exact over unbounded integers: for the
point with x-value `x_i` the numerator is the denominator times `(-1)^(x_i+1) * C(k, x_i)`, so
the denominator divides the numerator and `y_i * numerator`, the remainder of
`y_i * numerator / denominator` is zero, and `find_secret_c` (over unbounded integers) returns
the exact Lagrange value at 0; the compiled 128-bit function returns the same value whenever
the denominators, products, terms and the value itself fit in the signed 128-bit range. -/
theorem C14_consecutive_x_divisions_exact (points : List Point) (k : Nat)
    (hx : points.map Point.x = (List.range' 1 k).map (fun j : Nat => (j : Int))) :
    (∀ ip ∈ points.enum,
      (inner_loop id points ip.1 ip.2.x).1 = (inner_loop id points ip.1 ip.2.x).2
        * ((-1) ^ (ip.2.x.toNat + 1) * (Nat.choose k ip.2.x.toNat : Int)) ∧
      (inner_loop id points ip.1 ip.2.x).2 ∣ (inner_loop id points ip.1 ip.2.x).1 ∧
      (ip.2.y * (inner_loop id points ip.1 ip.2.x).1).tmod
        (inner_loop id points ip.1 ip.2.x).2 = 0) ∧
    divisions_exact points ∧
    ∃ v : Int, find_secret_c_unbounded points = some v ∧ (v : ℚ) = lagrange_at_zero points ∧
      (terms_in_range points → InRange128 v → find_secret_c points = some v) := by
  have hnd := nodup_map_x_of_consecutive points k hx
  have hq := numerator_eq_denominator_mul_choose points k hx
  have hdvd : ∀ po ∈ splits points, denominator_of po.1.x po.2 ∣ numerator_of po.2 :=
    fun po hpo => Dvd.intro _ (hq po hpo).symm
  have hex : divisions_exact points :=
    (divisions_exact_iff points).mpr (fun po hpo => Dvd.dvd.mul_left (hdvd po hpo) _)
  refine ⟨?_, hex, ((splits points).map exact_term).sum, ?_, sum_exact_term_cast points hnd hex,
    fun hr hv => by rw [find_secret_c_of_in_range points hnd hr, wrap128_of_inRange hv]⟩
  · apply (forall_enum_iff_splits (fun pt nd => nd.1 = nd.2
        * ((-1) ^ (pt.x.toNat + 1) * (Nat.choose k pt.x.toNat : Int)) ∧ nd.2 ∣ nd.1 ∧
        (pt.y * nd.1).tmod nd.2 = 0) points).mpr
    intro po hpo
    exact ⟨hq po hpo, hdvd po hpo,
      Int.tmod_eq_zero_of_dvd (Dvd.dvd.mul_left (hdvd po hpo) _)⟩
  · rw [find_secret_c_unbounded_eq,
      if_neg (fun ⟨po, hpo, h0⟩ => denominator_of_ne_zero points hnd po hpo h0)]

theorem C14_consecutive_x_divisions_exact_witness :
    (([⟨1, 4⟩, ⟨2, 7⟩, ⟨3, 12⟩] : List Point).map Point.x
        = (List.range' 1 3).map (fun j : Nat => (j : Int))) ∧
    divisions_exact [⟨1, 4⟩, ⟨2, 7⟩, ⟨3, 12⟩] :=
  ⟨by decide, (C14_consecutive_x_divisions_exact [⟨1, 4⟩, ⟨2, 7⟩, ⟨3, 12⟩] 3 (by decide)).2.1⟩

/-! ## The decimal rendering `to_string_big` -/

theorem digit_char_of_lt_ten (d : Nat) (h : d < 10) :
    Char.ofNat (wrap128 (((d : Nat) : Int) + 48)).toNat = digit_char d := by
  interval_cases d <;> decide

theorem to_string_big_loop_eq (fuel : Nat) :
    ∀ (m : Nat) (s : List Char), m ≤ fuel → (m : Int) ≤ ((2 ^ 127 : Nat) : Int) - 1 →
      to_string_big_loop wrap128 fuel (m : Int) s = s ++ (Nat.digits 10 m).map digit_char := by
  induction fuel with
  | zero =>
    intro m s hm _
    have : m = 0 := by omega
    subst this
    simp [to_string_big_loop]
  | succ f ih =>
    intro m s hm hr
    by_cases h0 : m = 0
    · subst h0
      simp [to_string_big_loop]
    · have hpos : (0 : Int) < (m : Int) := by omega
      have hdiv : ((m : Int)).tdiv 10 = ((m / 10 : Nat) : Int) := by
        rw [Int.tdiv_eq_ediv (by omega) (by decide)]
        norm_cast
      have hmod : ((m : Int)).tmod 10 = ((m % 10 : Nat) : Int) := by
        rw [Int.tmod_eq_emod (by omega) (by decide)]
        norm_cast
      have hr2 : InRange128 ((m / 10 : Nat) : Int) := by
        unfold InRange128
        norm_num at hr ⊢
        omega
      rw [to_string_big_loop, if_pos hpos, hdiv, hmod, wrap128_of_inRange hr2,
        digit_char_of_lt_ten _ (Nat.mod_lt _ (by decide)),
        ih (m / 10) _ (by omega) hr2.2,
        Nat.digits_def' (by decide) (Nat.pos_of_ne_zero h0)]
      simp

theorem to_string_big_loop_natAbs (n : Int) (hpos : 0 < n)
    (hr : n ≤ ((2 ^ 127 : Nat) : Int) - 1) :
    to_string_big_loop wrap128 n.toNat n [] = (Nat.digits 10 n.natAbs).map digit_char := by
  have h1 : n = ((n.toNat : Nat) : Int) := by omega
  have h2 : n.natAbs = n.toNat := by omega
  rw [h2]
  have := to_string_big_loop_eq n.toNat n.toNat [] le_rfl (by omega)
  rw [← h1] at this
  simpa using this

/-- The function `to_string_big` is the sign-first decimal rendering on every input of the
signed 128-bit range except `-2^127`. -/
theorem to_string_big_eq_signed_decimal (n : Int) (h1 : -((2 ^ 127 : Nat) : Int) < n)
    (h2 : n ≤ ((2 ^ 127 : Nat) : Int) - 1) : to_string_big n = signed_decimal n := by
  unfold to_string_big to_string_big_with signed_decimal
  by_cases h0 : n = 0
  · simp [h0]
  · rw [if_neg h0, if_neg h0]
    have hne : n.natAbs ≠ 0 := by omega
    by_cases hneg : n < 0
    · have hr : InRange128 (-n) := by
        unfold InRange128
        norm_num at h1 h2 ⊢
        omega
      simp only [hneg, decide_True, if_true, wrap128_of_inRange hr]
      rw [to_string_big_loop_natAbs (-n) (by omega) hr.2]
      simp [to_base_b_string, hne]
    · simp only [hneg, decide_False, if_false, Bool.false_eq_true]
      rw [to_string_big_loop_natAbs n (by omega) h2]
      simp [to_base_b_string, hne]

theorem parse_signed_decimal_of_ne (c : Char) (ds : List Char) (h : c ≠ '-') :
    parse_signed_decimal (c :: ds) = positional_value 10 (c :: ds) := by
  unfold parse_signed_decimal
  split
  · next heq => exact absurd (List.cons.inj heq).1 h
  · rfl

theorem digit_char_ne_minus (d : Nat) (h : d < 10) : digit_char d ≠ '-' := by
  interval_cases d <;> decide

theorem to_base_b_string_ten_head (m : Nat) (hm : m ≠ 0) :
    ∃ c ds, to_base_b_string m 10 = c :: ds ∧ c ≠ '-' := by
  unfold to_base_b_string
  rw [if_neg hm]
  have hne : Nat.digits 10 m ≠ [] := Nat.digits_ne_nil_iff_ne_zero.mpr hm
  have hlast := List.getLast_mem hne
  obtain ⟨init, hinit⟩ : ∃ init, Nat.digits 10 m = init ++ [(Nat.digits 10 m).getLast hne] :=
    ⟨_, (List.dropLast_append_getLast hne).symm⟩
  refine ⟨digit_char ((Nat.digits 10 m).getLast hne), init.reverse.map digit_char, ?_,
    digit_char_ne_minus _ (Nat.digits_lt_base (by decide) hlast)⟩
  conv_lhs => rw [hinit]
  simp

/-- Reading the sign-first decimal rendering gives back the integer. -/
theorem parse_signed_decimal_signed_decimal (n : Int) :
    parse_signed_decimal (signed_decimal n) = n := by
  have hpv := positional_value_to_base_b_string n.natAbs 10 (by decide) (by decide)
  simp only [Nat.cast_ofNat] at hpv
  unfold signed_decimal
  by_cases h0 : n = 0
  · subst h0; decide
  · rw [if_neg h0]
    have hne : n.natAbs ≠ 0 := by omega
    by_cases hneg : n < 0
    · rw [if_pos hneg]
      show -(positional_value 10 (to_base_b_string n.natAbs 10)) = n
      rw [hpv]; omega
    · rw [if_neg hneg, List.nil_append]
      obtain ⟨c, ds, hcd, hc⟩ := to_base_b_string_ten_head n.natAbs hne
      rw [hcd, parse_signed_decimal_of_ne c ds hc, ← hcd, hpv]
      omega


/-- C15 (failing input): on `n = -2^127`, the least signed 128-bit integer, the negation
`n = -n` wraps back to `-2^127`, the digit loop does not run, and `to_string_big` returns the
string `"-"` with no digits, whereas the sign-first decimal rendering is
`"-170141183460469231731687303715884105728"`; reading `"-"` back gives 0.  The digit loop
returns the empty string on the wrapped value whatever its iteration bound. -/
theorem C15_to_string_big_least_value :
    InRange128 (-((2 ^ 127 : Nat) : Int)) ∧
    to_string_big (-((2 ^ 127 : Nat) : Int)) = ['-'] ∧
    signed_decimal (-((2 ^ 127 : Nat) : Int))
      = "-170141183460469231731687303715884105728".toList ∧
    to_string_big (-((2 ^ 127 : Nat) : Int)) ≠ signed_decimal (-((2 ^ 127 : Nat) : Int)) ∧
    parse_signed_decimal (to_string_big (-((2 ^ 127 : Nat) : Int))) = 0 ∧
    (∀ fuel : Nat,
      to_string_big_loop wrap128 fuel (wrap128 (- -((2 ^ 127 : Nat) : Int))) [] = []) := by
  have h1 : to_string_big (-((2 ^ 127 : Nat) : Int)) = ['-'] := by decide
  have h2 : signed_decimal (-((2 ^ 127 : Nat) : Int))
      = "-170141183460469231731687303715884105728".toList := by
    simp [signed_decimal, to_base_b_string, digit_char]
  refine ⟨by decide, h1, h2, ?_, ?_, ?_⟩
  · rw [h1, h2]; decide
  · rw [h1]; decide
  · intro fuel
    have hw : wrap128 (- -((2 ^ 127 : Nat) : Int)) = -((2 ^ 127 : Nat) : Int) := by decide
    rw [hw]
    cases fuel with
    | zero => rfl
    | succ f =>
      rw [to_string_big_loop, if_neg (by decide)]

/-! ## Bounds on the positional value -/

theorem positional_value_lt_pow (b : Int) (hb : 2 ≤ b) (s : List Char)
    (hs : ∀ c ∈ s, 0 ≤ digit c ∧ digit c ≤ b - 1) :
    0 ≤ positional_value b s ∧ positional_value b s < b ^ s.length := by
  induction s with
  | nil => simp [positional_value]
  | cons c cs ih =>
    obtain ⟨h0, h1⟩ := ih (fun e he => hs e (List.mem_cons_of_mem _ he))
    obtain ⟨hd0, hd1⟩ := hs c (List.mem_cons_self _ _)
    have hpow : 0 < b ^ cs.length := by positivity
    simp only [positional_value, List.length_cons, pow_succ]
    constructor
    · have : 0 ≤ digit c * b ^ cs.length := mul_nonneg hd0 hpow.le
      omega
    · have : digit c * b ^ cs.length ≤ (b - 1) * b ^ cs.length :=
        mul_le_mul_of_nonneg_right hd1 hpow.le
      nlinarith

theorem positional_value_prefix_le (b : Int) (hb : 2 ≤ b) (pre suf : List Char)
    (hpre : 0 ≤ positional_value b pre) (hsuf : 0 ≤ positional_value b suf) :
    positional_value b pre ≤ positional_value b (pre ++ suf) := by
  rw [positional_value_append]
  have hpow : 1 ≤ b ^ suf.length := one_le_pow₀ (by omega)
  nlinarith

/-- C16: for every base `b` in `[2,36]` and every digit string valid in base `b` whose
positional value `v` is at most `2^127 - 1`, every intermediate accumulator of
`decode_y_value` in 128-bit wrap-around arithmetic (the result after each prefix of the string,
and the product `result * base` formed before the next digit is added) lies in
`[0, 2^127 - 1]` and equals its exact value, and the returned value is `v`. -/
theorem C16_decode_exact_when_fits (b : Int) (s : List Char) (hb2 : 2 ≤ b) (hb36 : b ≤ 36)
    (hs : ∀ c ∈ s, valid_digit b c)
    (hfit : positional_value b s ≤ ((2 ^ 127 : Nat) : Int) - 1) :
    decode_y_value s b = positional_value b s ∧
    (∀ pre suf : List Char, s = pre ++ suf →
      decode_y_value pre b = positional_value b pre ∧
      0 ≤ decode_y_value pre b ∧ decode_y_value pre b ≤ ((2 ^ 127 : Nat) : Int) - 1) ∧
    (∀ pre suf : List Char, ∀ c : Char, s = pre ++ c :: suf →
      wrap128 (decode_y_value pre b * b) = positional_value b pre * b ∧
      0 ≤ wrap128 (decode_y_value pre b * b) ∧
      wrap128 (decode_y_value pre b * b) ≤ ((2 ^ 127 : Nat) : Int) - 1) := by
  have hb0 : (0 : Int) ≤ b := by omega
  have key : ∀ pre suf : List Char, s = pre ++ suf →
      decode_y_value pre b = positional_value b pre ∧
      0 ≤ positional_value b pre ∧ positional_value b pre ≤ ((2 ^ 127 : Nat) : Int) - 1 := by
    intro pre suf h
    have hpre : 0 ≤ positional_value b pre :=
      positional_value_nonneg b hb0 pre (fun c hc => hs c (by rw [h]; simp [hc]))
    have hsuf : 0 ≤ positional_value b suf :=
      positional_value_nonneg b hb0 suf (fun c hc => hs c (by rw [h]; simp [hc]))
    have hle := positional_value_prefix_le b hb2 pre suf hpre hsuf
    rw [← h] at hle
    have hr : InRange128 (positional_value b pre) := ⟨le_trans (by decide) hpre, by omega⟩
    rw [decode_y_value_eq_wrap, wrap128_of_inRange hr]
    exact ⟨rfl, hpre, by omega⟩
  refine ⟨(key s [] (by simp)).1, ?_, ?_⟩
  · intro pre suf h
    obtain ⟨h1, h2, h3⟩ := key pre suf h
    rw [h1]
    exact ⟨rfl, h2, h3⟩
  · intro pre suf c h
    obtain ⟨h1, h2, -⟩ := key pre (c :: suf) h
    obtain ⟨-, -, h5⟩ := key (pre ++ [c]) suf (by simp [h])
    have hc0 : 0 ≤ digit c := valid_digit_nonneg b c (hs c (by rw [h]; simp))
    rw [positional_value_append] at h5
    simp only [List.length_singleton, pow_one, positional_value, List.length_nil, pow_zero,
      mul_one, add_zero] at h5
    have hprod : 0 ≤ positional_value b pre * b := mul_nonneg h2 hb0
    have hr : InRange128 (positional_value b pre * b) := ⟨le_trans (by decide) hprod, by omega⟩
    rw [h1, wrap128_of_inRange hr]
    exact ⟨rfl, hprod, by omega⟩

theorem C16_decode_exact_when_fits_witness :
    ((2 : Int) ≤ 3 ∧ (3 : Int) ≤ 36 ∧
      (∀ c ∈ "20120221122211000100210021102001201112121".toList, valid_digit 3 c) ∧
      positional_value 3 "20120221122211000100210021102001201112121".toList
        ≤ ((2 ^ 127 : Nat) : Int) - 1) ∧
    decode_y_value "20120221122211000100210021102001201112121".toList 3
      = positional_value 3 "20120221122211000100210021102001201112121".toList :=
  ⟨⟨by decide, by decide, by decide, by simp [positional_value, digit, isdigit, tolower]⟩,
    (C16_decode_exact_when_fits 3 "20120221122211000100210021102001201112121".toList
      (by decide) (by decide) (by decide)
      (by simp [positional_value, digit, isdigit, tolower])).1⟩

/-- C17: over unbounded integers, for every point list with pairwise distinct x-values, every
denominator computed by the inner loop of `find_secret_c` is non-zero, so the division by zero
is never reached and `find_secret_c` returns a value. -/
theorem C17_distinct_x_no_zero_denominator (points : List Point)
    (hx : (points.map Point.x).Nodup) :
    (∀ ip ∈ points.enum, (inner_loop id points ip.1 ip.2.x).2 ≠ 0) ∧
    ∃ v : Int, find_secret_c_unbounded points = some v := by
  have hd : ∀ po ∈ splits points, denominator_of po.1.x po.2 ≠ 0 :=
    fun po hpo => denominator_of_ne_zero points hx po hpo
  refine ⟨(forall_enum_iff_splits (fun _ nd => nd.2 ≠ 0) points).mpr hd, ?_⟩
  rw [find_secret_c_unbounded_eq, if_neg (fun ⟨po, hpo, h0⟩ => hd po hpo h0)]
  exact ⟨_, rfl⟩

theorem C17_distinct_x_no_zero_denominator_witness :
    (([⟨0, 1⟩, ⟨2 ^ 64, 1⟩, ⟨2 ^ 65, 1⟩] : List Point).map Point.x).Nodup ∧
    ((∀ ip ∈ ([⟨0, 1⟩, ⟨2 ^ 64, 1⟩, ⟨2 ^ 65, 1⟩] : List Point).enum,
        (inner_loop id [⟨0, 1⟩, ⟨2 ^ 64, 1⟩, ⟨2 ^ 65, 1⟩] ip.1 ip.2.x).2 ≠ 0) ∧
      ∃ v : Int, find_secret_c_unbounded [⟨0, 1⟩, ⟨2 ^ 64, 1⟩, ⟨2 ^ 65, 1⟩] = some v) :=
  ⟨by decide, C17_distinct_x_no_zero_denominator _ (by decide)⟩

/-- C18: for every base `b ≥ 2` and every digit string `s` in which each character has a digit
value in `[0, b-1]`, `decode_y_value` over unbounded integers returns a value `v` with
`0 ≤ v < b^length(s)`; the empty string decodes to 0. -/
theorem C18_decode_unbounded_bounds (b : Int) (s : List Char) (hb : 2 ≤ b)
    (hs : ∀ c ∈ s, 0 ≤ digit c ∧ digit c ≤ b - 1) :
    0 ≤ decode_y_value_unbounded s b ∧ decode_y_value_unbounded s b < b ^ s.length ∧
    decode_y_value_unbounded [] b = 0 := by
  rw [decode_y_value_unbounded_eq]
  exact ⟨(positional_value_lt_pow b hb s hs).1, (positional_value_lt_pow b hb s hs).2, rfl⟩

theorem C18_decode_unbounded_bounds_witness :
    ((2 : Int) ≤ 16 ∧ (∀ c ∈ "e1b5e05623d881f".toList, 0 ≤ digit c ∧ digit c ≤ 16 - 1)) ∧
    (0 ≤ decode_y_value_unbounded "e1b5e05623d881f".toList 16 ∧
      decode_y_value_unbounded "e1b5e05623d881f".toList 16
        < 16 ^ "e1b5e05623d881f".toList.length ∧
      decode_y_value_unbounded [] 16 = 0) :=
  ⟨by decide, C18_decode_unbounded_bounds 16 "e1b5e05623d881f".toList (by decide) (by decide)⟩

/-! ## The error of one truncated division -/

theorem natAbs_tmod_lt (a b : Int) (hb : b ≠ 0) : (a.tmod b).natAbs < b.natAbs := by
  rcases a with m | m <;> rcases b with n | n
  · have hn : n ≠ 0 := by rintro rfl; exact hb rfl
    show (Int.ofNat (m % n)).natAbs < (Int.ofNat n).natAbs
    simp only [Int.ofNat_eq_coe, Int.natAbs_ofNat]
    exact Nat.mod_lt _ (Nat.pos_of_ne_zero hn)
  · show (Int.ofNat (m % (n + 1))).natAbs < (Int.negSucc n).natAbs
    simp only [Int.ofNat_eq_coe, Int.natAbs_ofNat, Int.natAbs_negSucc]
    exact Nat.mod_lt _ (Nat.succ_pos n)
  · have hn : n ≠ 0 := by rintro rfl; exact hb rfl
    show (-Int.ofNat ((m + 1) % n)).natAbs < (Int.ofNat n).natAbs
    simp only [Int.ofNat_eq_coe, Int.natAbs_neg, Int.natAbs_ofNat]
    exact Nat.mod_lt _ (Nat.pos_of_ne_zero hn)
  · show (-Int.ofNat ((m + 1) % (n + 1))).natAbs < (Int.negSucc n).natAbs
    simp only [Int.ofNat_eq_coe, Int.natAbs_neg, Int.natAbs_ofNat, Int.natAbs_negSucc]
    exact Nat.mod_lt _ (Nat.succ_pos n)

theorem abs_tdiv_sub_div_lt_one (a d : Int) (hd : d ≠ 0) :
    |((a.tdiv d : Int) : ℚ) - (a : ℚ) / (d : ℚ)| < 1 := by
  have hdq : (d : ℚ) ≠ 0 := by exact_mod_cast hd
  have hsplit : (a : ℚ) = (d : ℚ) * ((a.tdiv d : Int) : ℚ) + ((a.tmod d : Int) : ℚ) := by
    exact_mod_cast (Int.tdiv_add_tmod a d).symm
  have hq : ((a.tdiv d : Int) : ℚ) - (a : ℚ) / (d : ℚ) = -(((a.tmod d : Int) : ℚ) / (d : ℚ)) := by
    rw [hsplit]
    field_simp
    ring
  rw [hq, abs_neg, abs_div, div_lt_one (abs_pos.mpr hdq)]
  have h := natAbs_tmod_lt a d hd
  have h2 : |a.tmod d| < |d| := by
    rw [Int.abs_eq_natAbs, Int.abs_eq_natAbs]
    exact_mod_cast h
  exact_mod_cast h2

theorem abs_sum_lt_length {α : Type} (f : α → ℚ) (L : List α) (hL : L ≠ [])
    (hf : ∀ a ∈ L, |f a| < 1) : |(L.map f).sum| < (L.length : ℚ) := by
  induction L with
  | nil => exact absurd rfl hL
  | cons a L ih =>
    have ha := hf a (List.mem_cons_self _ _)
    by_cases hnil : L = []
    · subst hnil
      simpa using ha
    · have h2 := ih hnil (fun e he => hf e (List.mem_cons_of_mem _ he))
      simp only [List.map_cons, List.sum_cons, List.length_cons, Nat.cast_add, Nat.cast_one]
      have := abs_add (f a) (L.map f).sum
      linarith

theorem splits_aux_length (post : List Point) :
    ∀ pre : List Point, (splits_aux pre post).length = post.length := by
  induction post with
  | nil => intro pre; rfl
  | cons p rest ih => intro pre; simp [splits_aux, ih]

theorem splits_length (l : List Point) : (splits l).length = l.length :=
  splits_aux_length l []

/-- C19: over unbounded integers, with division truncating toward zero, for every list of
`k ≥ 1` points with pairwise distinct x-values `find_secret_c` returns a value, and this value
differs from the exact rational Lagrange value at 0 by strictly less than `k` in absolute
value. -/
theorem C19_truncation_error_lt_k (points : List Point) (hk : 1 ≤ points.length)
    (hx : (points.map Point.x).Nodup) :
    ∃ v : Int, find_secret_c_unbounded points = some v ∧
      |(v : ℚ) - lagrange_at_zero points| < (points.length : ℚ) := by
  have hd : ∀ po ∈ splits points, denominator_of po.1.x po.2 ≠ 0 :=
    fun po hpo => denominator_of_ne_zero points hx po hpo
  refine ⟨((splits points).map exact_term).sum, ?_, ?_⟩
  · rw [find_secret_c_unbounded_eq, if_neg (fun ⟨po, hpo, h0⟩ => hd po hpo h0)]
  · have hne : splits points ≠ [] := by
      intro h
      have := splits_length points
      rw [h] at this
      simp at this
      omega
    have hsum : ((((splits points).map exact_term).sum : Int) : ℚ) - lagrange_at_zero points
        = ((splits points).map (fun po => ((exact_term po : Int) : ℚ)
            - (po.1.y : ℚ) * (numerator_of po.2 : ℚ) / (denominator_of po.1.x po.2 : ℚ))).sum := by
      unfold lagrange_at_zero
      rw [Int.cast_list_sum, List.map_map]
      generalize splits points = L
      induction L with
      | nil => simp
      | cons a L ih =>
        simp only [List.map_cons, List.sum_cons, Function.comp_apply] at ih ⊢
        rw [← ih]
        ring
    rw [hsum, ← splits_length points]
    apply abs_sum_lt_length _ _ hne
    intro po hpo
    have := abs_tdiv_sub_div_lt_one (po.1.y * numerator_of po.2) (denominator_of po.1.x po.2)
      (hd po hpo)
    simpa [exact_term] using this

theorem C19_truncation_error_lt_k_witness :
    (1 ≤ ([⟨1, 4⟩, ⟨2, 7⟩, ⟨6, 39⟩] : List Point).length ∧
      (([⟨1, 4⟩, ⟨2, 7⟩, ⟨6, 39⟩] : List Point).map Point.x).Nodup) ∧
    ∃ v : Int, find_secret_c_unbounded [⟨1, 4⟩, ⟨2, 7⟩, ⟨6, 39⟩] = some v ∧
      |(v : ℚ) - lagrange_at_zero [⟨1, 4⟩, ⟨2, 7⟩, ⟨6, 39⟩]|
        < (([⟨1, 4⟩, ⟨2, 7⟩, ⟨6, 39⟩] : List Point).length : ℚ) :=
  ⟨by decide, C19_truncation_error_lt_k [⟨1, 4⟩, ⟨2, 7⟩, ⟨6, 39⟩] (by decide) (by decide)⟩

end Shamir
